import Mathlib

/-!
Verification of the tplan terminal viewer core (Go sources, package `tui` of
`internal/tui` plus `internal/models`).  The development shallowly embeds

  * the structured-value model (`interface\x7b\x7d` values produced by
    `encoding/json`),
  * the grouping / tree-building engine (`buildTreeNodes`,
    `getResourceFileName`, `findReplacementFile`, `indexMatches`),
  * the rendering layer that determines per-node line counts
    (`renderValue`, `renderAttributes`, `renderAttributeDiff`,
    `renderDiffValue`, `renderDiffComparison`, `renderResourceDetails`), and
  * the navigation / viewport state machine (`Model.Update`,
    `Model.getVisibleNodes`, `Model.adjustViewport`).

Modelling conventions, fixed once and used throughout:

  * Go strings are modelled by Lean `String`; Go compares strings byte-wise,
    which on UTF-8 text agrees with the code-point comparison used here.
    The sources only index strings at ASCII positions, where byte and
    character indexing coincide.
  * lipgloss styles only wrap text in colour escape sequences; they insert
    no newlines and are irrelevant to both line counting and the textual
    content the claims are about, so `style.Render` is modelled as the
    identity on its argument.
  * Go `float64` numbers are modelled by `Int`: every number appearing in
    the modelled fragment is an integral float64, which every rendering
    switch in the source formats through its integer branch
    (`v == float64(int64(v))`).
  * `time.Time` is modelled by the formatted text that the single call
    `CommitDate.Format("2006-01-02 15:04:05")` would produce, since only
    that text reaches the view.
  * Go maps (`map[string]interface\x7b\x7d`) are modelled as association
    lists; every map in the source is consumed either through sorted-key
    iteration or through lookup, both of which are order-independent given
    distinct keys, so the association-list order never leaks.
-/

namespace TPlan

/-- Structured values as produced by Go's `encoding/json` into an
`interface\x7b\x7d`: object, array, string, bool, number, null.  Numbers are
modelled as integers (see the conventions above). -/
inductive Value where
  | vnull : Value
  | vbool (b : Bool) : Value
  | vnum (n : Int) : Value
  | vstr (s : String) : Value
  | varr (xs : List Value) : Value
  | vobj (fields : List (String × Value)) : Value

/-- Byte-lexicographic string order used by `sort.Strings` and by sorted key
iteration, expressed on the underlying character lists (Lean's built-in
`String` order does not reduce in the kernel, the list order does). -/
def strLe (a b : String) : Prop := a.data ≤ b.data

instance : DecidableRel strLe := fun a b => by
  unfold strLe; infer_instance

instance : IsTrans String strLe :=
  ⟨fun _ _ _ h1 h2 => le_trans h1 h2⟩

instance : IsTotal String strLe :=
  ⟨fun a b => le_total a.data b.data⟩

instance : IsAntisymm String strLe :=
  ⟨fun a b h1 h2 => by
    cases a; cases b
    simp only [strLe] at h1 h2
    exact congrArg String.mk (le_antisymm h1 h2)⟩

/-- `sort.Strings`: sort a list of strings ascending. -/
def sortStrings (l : List String) : List String :=
  l.insertionSort strLe

/-- Key order on map entries. -/
def fieldLe (p q : String × Value) : Prop := strLe p.1 q.1

instance : DecidableRel fieldLe := fun p q => by
  unfold fieldLe; infer_instance

/-- Sorted-key iteration over a Go map: sort an association list by key. -/
def sortFields (fs : List (String × Value)) : List (String × Value) :=
  fs.insertionSort fieldLe

/-- Keys of a Go map modelled as an association list, as a set: first
occurrences, in insertion order (callers always sort afterwards). -/
def mapKeys (fs : List (String × Value)) : List String :=
  (fs.map Prod.fst).dedup

/-- Go map lookup. -/
def mapLookup (fs : List (String × Value)) (k : String) : Option Value :=
  (fs.find? (fun p => p.1 = k)).map Prod.snd

/-- Key order on rendered map entries (key, rendered text).  The source
iterates a map's keys in sorted order and renders each entry; the model
renders every entry first and stably sorts the rendered pairs by key, which
produces the identical sequence since the comparison looks only at the
key. -/
def strPairLe (p q : String × String) : Prop := strLe p.1 q.1

instance : DecidableRel strPairLe := fun p q => by
  unfold strPairLe; infer_instance

/- `fmt.Sprintf("%v", x)` on a JSON-typed Go value: strings print raw,
booleans as `true`/`false`, integral numbers in decimal, `nil` as `<nil>`,
slices as space-separated values in brackets, maps as `map[k1:v1 k2:v2]`
with keys sorted (Go's `fmt` prints map keys in sorted order). -/
mutual

def goFormatV : Value → String
  | .vnull => "<nil>"
  | .vbool true => "true"
  | .vbool false => "false"
  | .vnum n => toString n
  | .vstr s => s
  | .varr xs =>
      "[" ++ String.intercalate " " (goFormatList xs) ++ "]"
  | .vobj fs =>
      "map[" ++ String.intercalate " "
        (((goFormatPairs fs).insertionSort strPairLe).map
          (fun p => p.1 ++ ":" ++ p.2)) ++ "]"

def goFormatList : List Value → List String
  | [] => []
  | v :: rest => goFormatV v :: goFormatList rest

def goFormatPairs : List (String × Value) → List (String × String)
  | [] => []
  | (k, v) :: rest => (k, goFormatV v) :: goFormatPairs rest

end

/-! ## Data model (internal/models/plan.go) -/

/-- `ChangeAction`: the closed action classification. -/
inductive ChangeAction where
  | create | update | delete | replace | read | noop
deriving DecidableEq, Repr

/-- `DriftInfo`: git attribution for a resource.  `CommitDateText` models the
`time.Time` field by the text its single call
`CommitDate.Format("2006-01-02 15:04:05")` produces, since only that text
reaches the view. -/
structure DriftInfo where
  ResourceName : String := ""
  FilePath : String := ""
  CommitID : String := ""
  BranchName : String := ""
  AuthorName : String := ""
  AuthorEmail : String := ""
  CommitDateText : String := ""
  CommitMessage : String := ""
  DiffExplanation : String := ""
  IsTracked : Bool := false
  HasUncommittedChanges : Bool := false
  Error : String := ""

/-- `DriftInfo.IsValid`. -/
def DriftInfo.IsValid (d : DriftInfo) : Bool :=
  d.Error = "" && d.IsTracked

/-- First `n` characters of a string (Go slicing `s[:n]` on ASCII text). -/
def strTake (s : String) (n : Nat) : String :=
  String.mk (s.data.take n)

/-- `DriftInfo.ShortCommitID`: first 8 characters of the commit id. -/
def DriftInfo.ShortCommitID (d : DriftInfo) : String :=
  if d.CommitID.length ≥ 8 then strTake d.CommitID 8 else d.CommitID

/-- `Change`: before/after state of a resource. -/
structure Change where
  Actions : List String := []
  Before : List (String × Value) := []
  After : List (String × Value) := []
  AfterUnknown : List (String × Value) := []
  BeforeSensitive : List (String × Value) := []
  AfterSensitive : List (String × Value) := []
  ReplacePaths : List (List Value) := []

/-- `ResourceChange`: a single resource change. -/
structure ResourceChange where
  Address : String := ""
  «Type» : String := ""
  Name : String := ""
  Module : String := ""
  Mode : String := ""
  ProviderName : String := ""
  Change : Change := {}
  Action : ChangeAction := .noop
  ActionReason : String := ""
  Index : Option Value := none
  Deposed : String := ""
  Dependencies : List String := []
  DriftInfo : Option DriftInfo := none

instance : Inhabited ResourceChange := ⟨{}⟩

/-- `TreeNode` (internal/tui): presentation wrapper.  `Level` is a Go `int`
that only ever holds 0 or 1; it is modelled as `Nat`. -/
inductive TreeNode where
  | mk (Resource : ResourceChange) (Expanded : Bool) (Children : List TreeNode)
      (Level : Nat) : TreeNode

def TreeNode.Resource : TreeNode → ResourceChange
  | .mk r _ _ _ => r

def TreeNode.Expanded : TreeNode → Bool
  | .mk _ e _ _ => e

def TreeNode.Children : TreeNode → List TreeNode
  | .mk _ _ c _ => c

def TreeNode.Level : TreeNode → Nat
  | .mk _ _ _ l => l

/-- Replace a node's expansion flag (the Go code mutates `node.Expanded`
through a pointer; values are rebuilt here). -/
def TreeNode.setExpanded : TreeNode → Bool → TreeNode
  | .mk r _ c l, b => .mk r b c l

instance : Inhabited TreeNode := ⟨.mk default false [] 0⟩

/-! ## Grouping / tree builder (internal/tui, part after line 603) -/

/-- `strings.Split(s, sep)` for a one-character separator, on character
lists. -/
def splitOnCharAux (c : Char) : List Char → List (List Char)
  | [] => [[]]
  | x :: xs =>
    match splitOnCharAux c xs with
    | [] => [[]]
    | h :: t => if x = c then [] :: h :: t else (x :: h) :: t

def splitOnChar (c : Char) (s : String) : List String :=
  (splitOnCharAux c s.data).map String.mk

/-- `getResourceFileName`: last path component of the drift file path, or
`"unknown.tf"` when no file information is available. -/
def getResourceFileName (res : ResourceChange) : String :=
  match res.DriftInfo with
  | some di =>
      if di.FilePath ≠ "" then (splitOnChar '/' di.FilePath).getLastD ""
      else "unknown.tf"
  | none => "unknown.tf"

/-- `indexMatches`: two resource indices match when both are absent, and
otherwise when their `fmt.Sprintf("%v", ·)` renderings coincide. -/
def indexMatches (idx1 idx2 : Option Value) : Bool :=
  match idx1, idx2 with
  | none, none => true
  | none, some _ => false
  | some _, none => false
  | some v1, some v2 => goFormatV v1 = goFormatV v2

/-- `findReplacementFile`: first create record of the same type whose index
matches and that resolves to a known file; returns that file, or `""`. -/
def findReplacementFile (deletedRes : ResourceChange) :
    List ResourceChange → String
  | [] => ""
  | res :: rest =>
    if res.Action = ChangeAction.create ∧ res.«Type» = deletedRes.«Type» ∧
        indexMatches res.Index deletedRes.Index ∧
        getResourceFileName res ≠ "unknown.tf" then
      getResourceFileName res
    else
      findReplacementFile deletedRes rest

/-- Module partition key: records with an empty module belong to `"root"`. -/
def moduleKey (r : ResourceChange) : String :=
  if r.Module = "" then "root" else r.Module

/-- Address order on resource records. -/
def addrLe (a b : ResourceChange) : Prop := strLe a.Address b.Address

instance : DecidableRel addrLe := fun a b => by
  unfold addrLe; infer_instance

instance : IsTrans ResourceChange addrLe :=
  ⟨fun _ _ _ h1 h2 => Trans.trans (r := strLe) h1 h2⟩

instance : IsTotal ResourceChange addrLe :=
  ⟨fun a b => IsTotal.total (r := strLe) a.Address b.Address⟩

/-- `sort.Slice(moduleResources, by Address)`.  The Go sort is unstable; on
the distinct addresses the data model guarantees, the result is uniquely
determined and agrees with this stable sort. -/
def sortByAddress (l : List ResourceChange) : List ResourceChange :=
  l.insertionSort addrLe

/-- A leaf node as `buildTreeNodes` constructs it. -/
def leafNode (res : ResourceChange) (level : Nat) : TreeNode :=
  .mk res false [] level

/-- The synthetic record of a file group header. -/
def fileGroupRecord (fileName : String) (firstRes : ResourceChange) :
    ResourceChange :=
  { Address := fileName, «Type» := "file", Name := fileName, Module := "root",
    Mode := "file", ProviderName := firstRes.ProviderName,
    Action := .noop, Change := { Actions := ["no-op"] } }

/-- The synthetic record of a module group header. -/
def moduleGroupRecord (moduleName : String) (firstRes : ResourceChange) :
    ResourceChange :=
  { Address := moduleName, «Type» := "module", Name := moduleName,
    Module := moduleName, Mode := "module",
    ProviderName := firstRes.ProviderName,
    Action := .noop, Change := { Actions := ["no-op"] } }

/-- Unplaced records of the root partition after the first grouping pass:
no file information is available for them. -/
def rootUngrouped0 (ms : List ResourceChange) : List ResourceChange :=
  ms.filter (fun r => getResourceFileName r = "unknown.tf")

/-- Records of the root partition that carry a usable file name. -/
def rootLocated (ms : List ResourceChange) : List ResourceChange :=
  ms.filter (fun r => getResourceFileName r ≠ "unknown.tf")

/-- Second grouping pass: unplaced delete records paired with the file of a
matching create record (`findReplacementFile`); each keeps its target file. -/
def rootRelocated (ms : List ResourceChange) : List (String × ResourceChange) :=
  (rootUngrouped0 ms).filterMap (fun r =>
    if r.Action = ChangeAction.delete then
      (let f := findReplacementFile r ms
       if f ≠ "" then some (f, r) else none)
    else none)

/-- Unplaced records that remain after the second pass. -/
def rootUngrouped (ms : List ResourceChange) : List ResourceChange :=
  (rootUngrouped0 ms).filter (fun r =>
    ¬ (r.Action = ChangeAction.delete ∧ findReplacementFile r ms ≠ ""))

/-- Sorted file-group keys of the root partition. -/
def rootFileNames (ms : List ResourceChange) : List String :=
  sortStrings ((rootLocated ms).map getResourceFileName).dedup

/-- Members of one file group: the located records of that file (already
address-sorted, in `ms` order) followed by the relocated delete records
whose replacement lives in that file. -/
def rootFileGroup (ms : List ResourceChange) (f : String) : List ResourceChange :=
  (rootLocated ms).filter (fun r => getResourceFileName r = f)
    ++ ((rootRelocated ms).filter (fun p => p.1 = f)).map Prod.snd

/-- The nodes `buildTreeNodes` emits for one module partition, as a function
of the partition's address-sorted member list `ms`.
For the `"root"` partition: group by file, re-attempt placement of unplaced
delete records through `findReplacementFile` (relocated records are appended
to their target group after its located members), flatten when there is
exactly one file group and nothing unplaced, and append the unplaced records
at top level.  For any other module: a single header node with the
address-sorted members as children. -/
def buildModuleNodes (moduleName : String) (ms : List ResourceChange) :
    List TreeNode :=
  if moduleName = "root" then
    (if (rootFileNames ms).length = 1 ∧ (rootUngrouped ms).length = 0 then
      (rootFileGroup ms ((rootFileNames ms).headD "")).map (fun r => leafNode r 0)
    else
      (rootFileNames ms).flatMap (fun f =>
        match rootFileGroup ms f with
        | [] => []
        | firstRes :: _ =>
          [TreeNode.mk (fileGroupRecord f firstRes) false
            ((rootFileGroup ms f).map (fun r => leafNode r 1)) 0]))
    ++ (rootUngrouped ms).map (fun r => leafNode r 0)
  else
    match ms with
    | [] => []
    | firstRes :: _ =>
      [TreeNode.mk (moduleGroupRecord moduleName firstRes) false
        (ms.map (fun r => leafNode r 1)) 0]

/-- One module partition of `buildTreeNodes`: filter the partition's members
out of the changing list, sort them by address, and build its nodes. -/
def buildModuleBlock (changingResources : List ResourceChange)
    (moduleName : String) : List TreeNode :=
  buildModuleNodes moduleName
    (sortByAddress (changingResources.filter (fun r => moduleKey r = moduleName)))

/-- `buildTreeNodes`: drop no-op records, partition by module (empty module
= `"root"`), iterate partitions in sorted key order. -/
def buildTreeNodes (resources : List ResourceChange) : List TreeNode :=
  let changingResources :=
    resources.filter (fun r => r.Action ≠ ChangeAction.noop)
  let moduleNames := sortStrings (changingResources.map moduleKey).dedup
  moduleNames.flatMap (buildModuleBlock changingResources)

/-! ## Rendering layer (styles modelled as the identity on text) -/

/-- `fmt` left-justified padding `%-Ns` (ASCII text: byte and character
widths coincide). -/
def padRight (s : String) (w : Nat) : String :=
  s ++ String.mk (List.replicate (w - s.length) ' ')

/-- `strings.Count(s, "\n")` for the one-character pattern used in the
sources. -/
def countChar (c : Char) (s : String) : Nat :=
  s.data.count c

/-- One character of Go `%q` quoting.  Matches `strconv.Quote` on the
printable fragment; the exotic control-character escapes are not modelled
(no modelled string reaches them). -/
def goQuoteChar (c : Char) : String :=
  if c = '"' then "\\\""
  else if c = '\\' then "\\\\"
  else if c = '\n' then "\\n"
  else if c = '\t' then "\\t"
  else if c = '\r' then "\\r"
  else String.mk [c]

/-- Go `fmt.Sprintf("%q", s)`. -/
def goQuote (s : String) : String :=
  "\"" ++ String.join (s.data.map goQuoteChar) ++ "\""

/- `renderValue`: one attribute value with nesting; depth beyond 5 prints
the opaque marker.  Nested object entries are rendered per key and the
rendered (key, text) pairs stably sorted by key, matching the source's
sorted-key iteration (see `strPairLe`). -/
mutual

def renderValue (indent key : String) (value : Value) (depth : Nat) : String :=
  if depth > 5 then
    indent ++ key ++ " = <deeply nested>\n"
  else
    match value with
    | .vobj fs =>
      if fs.length = 0 then indent ++ key ++ " = \x7b\x7d\n"
      else
        (indent ++ key ++ " = \x7b\n")
          ++ String.join
            (((renderValuePairs (indent ++ "  ") fs (depth + 1)).insertionSort
                strPairLe).map Prod.snd)
          ++ (indent ++ "\x7d\n")
    | .varr xs =>
      if xs.length = 0 then indent ++ key ++ " = []\n"
      else
        (indent ++ key ++ " = [\n")
          ++ String.join (renderValueItems (indent ++ "  ") xs 0 (depth + 1))
          ++ (indent ++ "]\n")
    | .vstr s => indent ++ key ++ " = " ++ goQuote s ++ "\n"
    | .vnull => indent ++ key ++ " = null\n"
    | .vbool b => indent ++ key ++ " = " ++ (if b then "true" else "false") ++ "\n"
    | .vnum n => indent ++ key ++ " = " ++ toString n ++ "\n"

def renderValuePairs (indent : String) (fs : List (String × Value))
    (depth : Nat) : List (String × String) :=
  match fs with
  | [] => []
  | (k, v) :: rest =>
    (k, renderValue indent k v depth) :: renderValuePairs indent rest depth

def renderValueItems (indent : String) (xs : List Value) (i : Nat)
    (depth : Nat) : List String :=
  match xs with
  | [] => []
  | v :: rest =>
    renderValue indent ("[" ++ toString i ++ "]") v depth
      :: renderValueItems indent rest (i + 1) depth

end

/- `renderDiffValue`: an added (`+`) or removed (`-`) value in a diff, with
the same rendered-pair sorting convention as `renderValue`. -/
mutual

def renderDiffValue (indent prefixSign key : String) (value : Value)
    (depth : Nat) : String :=
  if depth > 5 then
    indent ++ "  " ++ prefixSign ++ " " ++ key ++ " = <deeply nested>\n"
  else
    match value with
    | .vobj fs =>
      if fs.length = 0 then
        indent ++ "  " ++ prefixSign ++ " " ++ key ++ " = " ++ "\x7b\x7d" ++ "\n"
      else
        (indent ++ "  " ++ prefixSign ++ " " ++ key ++ " = \x7b\n")
          ++ String.join
            (((renderDiffValuePairs (indent ++ "  ") prefixSign fs
                (depth + 1)).insertionSort strPairLe).map Prod.snd)
          ++ (indent ++ "  " ++ prefixSign ++ " \x7d\n")
    | .varr xs =>
      if xs.length = 0 then
        indent ++ "  " ++ prefixSign ++ " " ++ key ++ " = " ++ "[]" ++ "\n"
      else
        (indent ++ "  " ++ prefixSign ++ " " ++ key ++ " = [\n")
          ++ String.join
            (renderDiffValueItems (indent ++ "  ") prefixSign xs 0 (depth + 1))
          ++ (indent ++ "  " ++ prefixSign ++ " ]\n")
    | .vstr s => indent ++ "  " ++ prefixSign ++ " " ++ key ++ " = " ++ goQuote s ++ "\n"
    | .vnull => indent ++ "  " ++ prefixSign ++ " " ++ key ++ " = " ++ "null" ++ "\n"
    | .vbool b =>
      indent ++ "  " ++ prefixSign ++ " " ++ key ++ " = "
        ++ (if b then "true" else "false") ++ "\n"
    | .vnum n => indent ++ "  " ++ prefixSign ++ " " ++ key ++ " = " ++ toString n ++ "\n"

def renderDiffValuePairs (indent prefixSign : String)
    (fs : List (String × Value)) (depth : Nat) : List (String × String) :=
  match fs with
  | [] => []
  | (k, v) :: rest =>
    (k, renderDiffValue indent prefixSign k v depth)
      :: renderDiffValuePairs indent prefixSign rest depth

def renderDiffValueItems (indent prefixSign : String) (xs : List Value)
    (i : Nat) (depth : Nat) : List String :=
  match xs with
  | [] => []
  | v :: rest =>
    renderDiffValue indent prefixSign ("[" ++ toString i ++ "]") v depth
      :: renderDiffValueItems indent prefixSign rest (i + 1) depth

end

/- Agreement of two structured values down to a bounded depth: at fuel 0 any
two values agree; at positive fuel the top constructors, scalar contents,
object keys and lengths must coincide and the components agree at one fuel
less.  `renderValue`/`renderDiffValue` at depth d only inspect a value to
depth 6 - d, which the congruence theorems below make precise. -/
mutual

def truncAgreeV : Nat → Value → Value → Bool
  | 0, _, _ => true
  | Nat.succ n, v, w =>
    match v, w with
    | .vnull, .vnull => true
    | .vbool a, .vbool b => a == b
    | .vnum a, .vnum b => a == b
    | .vstr a, .vstr b => a == b
    | .vobj fs, .vobj gs => truncAgreeFields n fs gs
    | .varr xs, .varr ys => truncAgreeItems n xs ys
    | _, _ => false

def truncAgreeFields : Nat → List (String × Value) → List (String × Value) → Bool
  | _, [], [] => true
  | n, (k, v) :: fs, (k2, w) :: gs =>
    k == k2 && truncAgreeV n v w && truncAgreeFields n fs gs
  | _, _, _ => false

def truncAgreeItems : Nat → List Value → List Value → Bool
  | _, [], [] => true
  | n, v :: xs, w :: ys => truncAgreeV n v w && truncAgreeItems n xs ys
  | _, _, _ => false

end

/- A nested single-key object chain of the given depth ending in the given
leaf, for exercising the depth cap. -/
def vchain (leaf : Value) : Nat → Value
  | 0 => leaf
  | n + 1 => .vobj [("a", vchain leaf n)]

/-! ## tryPrettyJSON: `json.Unmarshal` / `json.MarshalIndent` model -/

/-- JSON whitespace skipping. -/
def skipWs : List Char → List Char
  | [] => []
  | c :: cs =>
    if c = ' ' ∨ c = '\n' ∨ c = '\t' ∨ c = '\r' then skipWs cs else c :: cs

/-- Expect a literal character sequence. -/
def expectChars : List Char → List Char → Option (List Char)
  | [], cs => some cs
  | e :: es, c :: cs => if c = e then expectChars es cs else none
  | _ :: _, [] => none

/-- JSON string body up to the closing quote, with the basic escapes.
`\u` escapes and exotic control escapes are not modelled (no modelled input
contains them); input using them is treated as unparseable. -/
def parseJsonString : List Char → Option (String × List Char) :=
  fun cs => go [] cs
where
  go (acc : List Char) : List Char → Option (String × List Char)
    | [] => none
    | c :: cs =>
      if c = '"' then some (String.mk acc.reverse, cs)
      else if c = '\\' then
        match cs with
        | [] => none
        | e :: cs2 =>
          if e = '"' then go ('"' :: acc) cs2
          else if e = '\\' then go ('\\' :: acc) cs2
          else if e = '/' then go ('/' :: acc) cs2
          else if e = 'n' then go ('\n' :: acc) cs2
          else if e = 't' then go ('\t' :: acc) cs2
          else if e = 'r' then go ('\r' :: acc) cs2
          else none
      else go (c :: acc) cs

/-- Longest digit prefix as a number. -/
def parseDigits : List Char → Option (Nat × List Char) :=
  fun cs => go none 0 cs
where
  go (found : Option Nat) (acc : Nat) : List Char → Option (Nat × List Char)
    | [] => found.map (fun _ => (acc, []))
    | c :: cs =>
      if '0' ≤ c ∧ c ≤ '9' then
        go (some 1) (acc * 10 + (c.toNat - '0'.toNat)) cs
      else
        found.map (fun _ => (acc, c :: cs))

/- One JSON value, fuelled recursive descent.  Restricted to the `Value`
model: numbers must be integers (a fraction or exponent makes the input
unparseable here, where Go would produce a non-integral float64 that the
model cannot represent). -/
mutual

def parseJsonValue : Nat → List Char → Option (Value × List Char)
  | 0, _ => none
  | fuel + 1, cs =>
    match skipWs cs with
    | [] => none
    | c :: rest =>
      if c = 'n' then (expectChars ['u', 'l', 'l'] rest).map (fun r => (.vnull, r))
      else if c = 't' then (expectChars ['r', 'u', 'e'] rest).map (fun r => (.vbool true, r))
      else if c = 'f' then (expectChars ['a', 'l', 's', 'e'] rest).map (fun r => (.vbool false, r))
      else if c = '"' then (parseJsonString rest).map (fun p => (.vstr p.1, p.2))
      else if c = '-' then
        match parseDigits rest with
        | some (n, r) =>
          match r with
          | d :: _ => if d = '.' ∨ d = 'e' ∨ d = 'E' then none else some (.vnum (-(n : Int)), r)
          | [] => some (.vnum (-(n : Int)), [])
        | none => none
      else if '0' ≤ c ∧ c ≤ '9' then
        match parseDigits (c :: rest) with
        | some (n, r) =>
          match r with
          | d :: _ => if d = '.' ∨ d = 'e' ∨ d = 'E' then none else some (.vnum (n : Int), r)
          | [] => some (.vnum (n : Int), [])
        | none => none
      else if c = '[' then
        match skipWs rest with
        | ']' :: r => some (.varr [], r)
        | other => parseJsonArrayItems fuel other []
      else if c = '\x7b' then
        match skipWs rest with
        | '\x7d' :: r => some (.vobj [], r)
        | other => parseJsonObjectItems fuel other []
      else none

/-- Comma-separated array elements up to `]`. -/
def parseJsonArrayItems (fuel : Nat) (cs : List Char) (acc : List Value) :
    Option (Value × List Char) :=
  match fuel with
  | 0 => none
  | fuel + 1 =>
    match parseJsonValue fuel cs with
    | none => none
    | some (v, r) =>
      match skipWs r with
      | ',' :: r2 => parseJsonArrayItems fuel r2 (acc ++ [v])
      | ']' :: r2 => some (.varr (acc ++ [v]), r2)
      | _ => none

/-- Comma-separated `"key": value` members up to the closing brace. -/
def parseJsonObjectItems (fuel : Nat) (cs : List Char)
    (acc : List (String × Value)) : Option (Value × List Char) :=
  match fuel with
  | 0 => none
  | fuel + 1 =>
    match skipWs cs with
    | '"' :: r =>
      match parseJsonString r with
      | none => none
      | some (k, r2) =>
        match skipWs r2 with
        | ':' :: r3 =>
          match parseJsonValue fuel r3 with
          | none => none
          | some (v, r4) =>
            match skipWs r4 with
            | ',' :: r5 => parseJsonObjectItems fuel r5 (acc ++ [(k, v)])
            | '\x7d' :: r5 => some (.vobj (acc ++ [(k, v)]), r5)
            | _ => none
        | _ => none
    | _ => none

end

/-- `json.Unmarshal([]byte(s), &v)`: parse the whole input (with trailing
whitespace) or fail. -/
def parseJson (s : String) : Option Value :=
  match parseJsonValue (s.length + 1) s.data with
  | some (v, rest) => if skipWs rest = [] then some v else none
  | none => none

/-- One character of Go `json.Marshal` string escaping (HTML escaping of
`<`, `>`, `&` included, as Go does by default). -/
def jsonEscapeChar (c : Char) : String :=
  if c = '"' then "\\\""
  else if c = '\\' then "\\\\"
  else if c = '\n' then "\\n"
  else if c = '\t' then "\\t"
  else if c = '\r' then "\\r"
  else if c = '<' then "\\u003c"
  else if c = '>' then "\\u003e"
  else if c = '&' then "\\u0026"
  else String.mk [c]

def jsonQuote (s : String) : String :=
  "\"" ++ String.join (s.data.map jsonEscapeChar) ++ "\""

/- `json.MarshalIndent(v, "", "  ")` at the current indentation: objects
print keys sorted (rendered pairs stably sorted by key, see `strPairLe`),
composites indent nested members by two spaces. -/
mutual

def jsonMarshalIndentAux (curIndent : String) : Value → String
  | .vnull => "null"
  | .vbool b => if b then "true" else "false"
  | .vnum n => toString n
  | .vstr s => jsonQuote s
  | .varr xs =>
    if xs.length = 0 then "[]"
    else
      "[\n"
        ++ String.intercalate ",\n"
          ((jsonMarshalItems (curIndent ++ "  ") xs).map
            (fun t => curIndent ++ "  " ++ t))
        ++ "\n" ++ curIndent ++ "]"
  | .vobj fs =>
    if fs.length = 0 then "\x7b\x7d"
    else
      "\x7b\n"
        ++ String.intercalate ",\n"
          (((jsonMarshalPairs (curIndent ++ "  ") fs).insertionSort
              strPairLe).map
            (fun p => curIndent ++ "  " ++ jsonQuote p.1 ++ ": " ++ p.2))
        ++ "\n" ++ curIndent ++ "\x7d"

def jsonMarshalItems (curIndent : String) : List Value → List String
  | [] => []
  | v :: rest => jsonMarshalIndentAux curIndent v :: jsonMarshalItems curIndent rest

def jsonMarshalPairs (curIndent : String) :
    List (String × Value) → List (String × String)
  | [] => []
  | (k, v) :: rest =>
    (k, jsonMarshalIndentAux curIndent v) :: jsonMarshalPairs curIndent rest

end

def jsonMarshalIndent (v : Value) : String :=
  jsonMarshalIndentAux "" v

/-- Inner loop of `wrapStringSimple`: scan `i` downward from `maxLen` while
`i > maxLen-20 && i > 0` looking for a space, comma or semicolon; the break
point is one past it, or `maxLen` when none is found.  (Go's `maxLen-20` can
be negative, making the first conjunct vacuous; natural subtraction to 0
gives the same guard.) -/
def wrapBreakPointAux (remaining : List Char) (maxLen : Nat) : Nat → Nat
  | 0 => maxLen
  | i + 1 =>
    if i + 1 > maxLen - 20 then
      (let c := remaining.getD (i + 1) ' '
       if c = ' ' ∨ c = ',' ∨ c = ';' then i + 2
       else wrapBreakPointAux remaining maxLen i)
    else maxLen

/-- `wrapStringSimple`: wrap at `maxLen` with a preference for breaking just
after a space/comma/semicolon in the last 20 columns.  Fuelled by the string
length: one piece of at least one character is emitted per step whenever
`maxLen ≥ 1` (for `maxLen = 0` the Go loop would not terminate; no call site
uses it). -/
def wrapStringSimpleAux (maxLen : Nat) : Nat → List Char → String
  | 0, _ => ""
  | _ + 1, [] => ""
  | fuel + 1, remaining =>
    if remaining.length ≤ maxLen then String.mk remaining
    else
      let breakPoint := wrapBreakPointAux remaining maxLen maxLen
      String.mk (remaining.take breakPoint) ++ "\n"
        ++ wrapStringSimpleAux maxLen fuel (remaining.drop breakPoint)

def wrapStringSimple (s : String) (maxLen : Nat) : String :=
  if s.length ≤ maxLen then s
  else wrapStringSimpleAux maxLen s.length s.data

/-- `tryPrettyJSON`: pretty-print when the string parses as JSON, otherwise
return it wrapped at 100 columns.  (`json.MarshalIndent` cannot fail on
values produced by `json.Unmarshal`; that dead error branch is omitted.) -/
def tryPrettyJSON (s : String) : String :=
  match parseJson s with
  | some v => jsonMarshalIndent v
  | none => wrapStringSimple s 100

/-- `renderSideBySideDiff`: before lines padded to the widest before line,
separated from the after lines by `│`. -/
def renderSideBySideDiff (indent : String)
    (beforeLines afterLines : List String) : String :=
  let maxLineWidth := beforeLines.foldl
    (fun acc line => if line.length > acc then line.length else acc) 0
  let maxLines := max beforeLines.length afterLines.length
  String.join ((List.range maxLines).map (fun i =>
    let beforeLine := beforeLines.getD i ""
    let afterLine := afterLines.getD i ""
    let paddingNeeded := maxLineWidth - beforeLine.length
    indent ++ beforeLine ++ String.mk (List.replicate paddingNeeded ' ')
      ++ " │ " ++ afterLine ++ "\n"))

/-- The scalar formatting switch shared by the before and after sides of an
inline changed entry (the two switch statements in the source are identical
up to colour). -/
def formatInlineScalar (v : Value) : String :=
  match v with
  | .vstr s => goQuote s
  | .vnull => "null"
  | .vbool b => if b then "true" else "false"
  | .vnum n => toString n
  | _ =>
    let s := goFormatV v
    if s.length > 60 then strTake s 57 ++ "..." else s

/-- `renderDiffComparison`: compare a key present on both sides.  Equal `%v`
renderings produce no output; two long strings get a side-by-side diff of
their pretty-printed forms; anything else an inline `~ key: before → after`
line. -/
def renderDiffComparison (indent key : String) (before after : Value)
    (depth : Nat) : String :=
  if depth > 5 then
    indent ++ "  ~ " ++ key ++ " = <deeply nested>\n"
  else
    let beforeStr := goFormatV before
    let afterStr := goFormatV after
    if beforeStr = afterStr then ""
    else
      let inline :=
        indent ++ "  ~ " ++ key ++ ": "
          ++ formatInlineScalar before ++ " → " ++ formatInlineScalar after ++ "\n"
      match before, after with
      | .vstr beforeString, .vstr afterString =>
        if beforeString.length > 60 ∨ afterString.length > 60 then
          indent ++ "  ~ " ++ key ++ ":\n"
            ++ renderSideBySideDiff indent
                (splitOnChar '\n' (tryPrettyJSON beforeString))
                (splitOnChar '\n' (tryPrettyJSON afterString))
        else inline
      | _, _ => inline

/-- `renderAttributeDiff`: iterate the sorted union of both key sets;
keys only in `after` render as added, keys only in `before` as removed,
keys in both through `renderDiffComparison`.  (The `none, none` case is
unreachable; Go would compare two nil interfaces, which render equal and
produce nothing, and the model does the same.) -/
def renderAttributeDiff (baseIndent : String)
    (before after : List (String × Value)) : String :=
  let keys := sortStrings ((before.map Prod.fst) ++ (after.map Prod.fst)).dedup
  String.join (keys.map (fun k =>
    match mapLookup before k, mapLookup after k with
    | none, some afterVal => renderDiffValue baseIndent "+" k afterVal 0
    | some beforeVal, none => renderDiffValue baseIndent "-" k beforeVal 0
    | some beforeVal, some afterVal =>
      renderDiffComparison baseIndent k beforeVal afterVal 0
    | none, none => renderDiffComparison baseIndent k .vnull .vnull 0))

/-- `renderAttributes`: all attributes in sorted key order.  (`subIndent` is
unused in the source as well; a missing key would render Go's nil interface,
i.e. null.) -/
def renderAttributes (baseIndent : String) (attrs : List (String × Value))
    (subIndent : String) : String :=
  let keys := sortStrings (attrs.map Prod.fst).dedup
  String.join (keys.map (fun k =>
    renderValue baseIndent k ((mapLookup attrs k).getD .vnull) 0))

/-- `string(res.Action)`. -/
def actionToString : ChangeAction → String
  | .create => "create"
  | .update => "update"
  | .delete => "delete"
  | .replace => "replace"
  | .read => "read"
  | .noop => "no-op"

/-- `renderResourceDetails`: metadata block, optional file/git information
block, and the action-directed attribute rendering, followed by a blank
separator line. -/
def renderResourceDetails (node : TreeNode) : String :=
  let indent := "    "
  let res := node.Resource
  let action := actionToString res.Action
  let metadata :=
    indent ++ padRight "Type:" 5 ++ " " ++ res.«Type» ++ "\n"
      ++ indent ++ padRight "Provider:" 5 ++ " " ++ res.ProviderName ++ "\n"
      ++ indent ++ padRight "Mode:" 5 ++ " " ++ res.Mode ++ "\n"
  let fileInfo :=
    match res.DriftInfo with
    | some di =>
      if di.FilePath ≠ "" then
        "\n" ++ indent ++ "File Information:\n"
          ++ (if di.IsValid then
                indent ++ "  " ++ padRight "File:" 5 ++ " " ++ padRight di.FilePath 80
                  ++ " " ++ padRight "Commit:" 7 ++ " " ++ di.ShortCommitID ++ "\n"
                  ++ indent ++ "  " ++ padRight "Branch:" 5 ++ " " ++ di.BranchName ++ "\n"
                  ++ indent ++ "  " ++ padRight "Author:" 5 ++ " " ++ di.AuthorName
                    ++ " <" ++ di.AuthorEmail ++ ">\n"
                  ++ indent ++ "  " ++ padRight "Date:" 5 ++ " " ++ di.CommitDateText ++ "\n"
              else
                indent ++ "  " ++ padRight "File:" 5 ++ " " ++ di.FilePath ++ "\n")
          ++ (if di.HasUncommittedChanges then
                indent ++ "  " ++ padRight "Status:" 5 ++ " Has uncommitted changes\n"
              else "")
          ++ "\n"
      else ""
    | none => ""
  let attrs :=
    if action = "create" then renderAttributes indent res.Change.After "  "
    else if action = "delete" then renderAttributes indent res.Change.Before "  "
    else if action = "update" ∨ action = "replace" then
      renderAttributeDiff indent res.Change.Before res.Change.After
    else ""
  metadata ++ fileInfo ++ attrs ++ "\n"

/- Depth-first flattening of a forest to the wrapped records (each node's
record before its children's). -/
mutual

def flattenNode : TreeNode → List ResourceChange
  | .mk r _ cs _ => r :: flattenForest cs

def flattenForest : List TreeNode → List ResourceChange
  | [] => []
  | n :: ns => flattenNode n ++ flattenForest ns

end

/- Depth-first flattening of a forest to its nodes. -/
mutual

def dfsNode : TreeNode → List TreeNode
  | .mk r e cs l => .mk r e cs l :: dfsForest cs

def dfsForest : List TreeNode → List TreeNode
  | [] => []
  | n :: ns => dfsNode n ++ dfsForest ns

end

/-! ## Navigation state machine and viewport engine -/

/-- The Bubble Tea model.  The `plan` pointer is omitted: none of the
modelled transitions reads it (it feeds only the summary/tab/error/warning
renderings, which carry no state).  `cursor`, `viewportTop`, `viewportSize`,
`width` and `height` are Go `int`s. -/
structure Model where
  nodes : List TreeNode
  cursor : Int
  viewMode : Nat
  viewportTop : Int
  viewportSize : Int
  width : Int
  height : Int

/-- `NewModel` built over a resource list. -/
def NewModel (resources : List ResourceChange) : Model :=
  { nodes := buildTreeNodes resources, cursor := 0, viewMode := 0,
    viewportTop := 0, viewportSize := 20, width := 80, height := 24 }

/-- `Model.getVisibleNodes`: every top-level node, followed by its children
when it is expanded and has any. -/
def Model.getVisibleNodes (m : Model) : List TreeNode :=
  m.nodes.flatMap (fun node =>
    node :: (if node.Expanded ∧ node.Children.length > 0 then node.Children else []))

/-- The newline count that `adjustViewport` (and `renderChangesView`) adds
for a node beyond its own header line: the newlines of
`renderResourceDetails` when the node is expanded and is not a module
header. -/
def detailNewlineCount (node : TreeNode) : Nat :=
  if node.Expanded ∧ (node.Level = 0 ∨ node.Resource.«Type» ≠ "module") then
    (let details := renderResourceDetails node
     if details = "" then 0 else countChar '\n' details)
  else 0

/-- Rendered line count of one visible node (header plus expanded detail). -/
def nodeLines (node : TreeNode) : Nat :=
  1 + detailNewlineCount node

/-- Cumulative line offset of the node at `cursor` in the visible sequence
(the `cursorLineStart` loop of `adjustViewport`). -/
def cursorLineStartOf (visible : List TreeNode) (cursor : Nat) : Nat :=
  ((visible.take cursor).map nodeLines).sum

/-- `Model.adjustViewport`: clamp the cursor into the visible range, compute
the cursor node's line extent, and move `viewportTop` so the node is shown
(whole node when it fits the budget, from its header when it does not),
never negative. -/
def Model.adjustViewport (m : Model) : Model :=
  let visibleNodes := m.getVisibleNodes
  if visibleNodes.length = 0 then
    { m with viewportTop := 0 }
  else
    let c1 : Int :=
      if m.cursor ≥ (visibleNodes.length : Int) then (visibleNodes.length : Int) - 1
      else m.cursor
    let cursor : Int := if c1 < 0 then 0 else c1
    let cursorLineStart : Int := (cursorLineStartOf visibleNodes cursor.toNat : Int)
    let currentNode := visibleNodes.getD cursor.toNat default
    let currentNodeLines : Int := (nodeLines currentNode : Int)
    let cursorLineEnd : Int := cursorLineStart + currentNodeLines - 1
    let top1 : Int :=
      if cursorLineStart < m.viewportTop then cursorLineStart
      else if cursorLineEnd ≥ m.viewportTop + m.viewportSize then
        (if currentNodeLines ≤ m.viewportSize then
          cursorLineEnd - m.viewportSize + 1
        else cursorLineStart)
      else m.viewportTop
    let top2 : Int := if top1 < 0 then 0 else top1
    { m with cursor := cursor, viewportTop := top2 }

/-- Flip the expansion flag of the node at index `i` of the visible
sequence (the Go code mutates through the pointer returned by
`getVisibleNodes`; here the forest is rebuilt with the same walk). -/
def toggleAt (nodes : List TreeNode) (i : Nat) : List TreeNode :=
  match nodes with
  | [] => []
  | n :: rest =>
    if i = 0 then n.setExpanded (! n.Expanded) :: rest
    else
      let childCount := if n.Expanded ∧ n.Children.length > 0 then n.Children.length else 0
      if i - 1 < childCount then
        (let c := n.Children.getD (i - 1) default
         TreeNode.mk n.Resource n.Expanded
           (n.Children.set (i - 1) (c.setExpanded (! c.Expanded))) n.Level :: rest)
      else n :: toggleAt rest (i - 1 - childCount)

/-- Input events: key presses and window resizes (`tea.KeyMsg`,
`tea.WindowSizeMsg`). -/
inductive Msg where
  | key (s : String)
  | windowSize (width height : Int)

/-- `Model.Update`.  `none` models a Go runtime panic: the only panicking
path is `enter`/space with a negative cursor, where Go indexes
`visibleNodes[m.cursor]` out of range.  Keys `ctrl+c`/`q` leave the state
unchanged (they only emit `tea.Quit`); unrecognised keys are ignored. -/
def Model.Update (msg : Msg) (m : Model) : Option Model :=
  match msg with
  | .windowSize w h =>
    some { m with width := w, height := h, viewportSize := h - 10 }
  | .key s =>
    if s = "ctrl+c" ∨ s = "q" then some m
    else if s = "up" ∨ s = "k" then
      some (if m.cursor > 0 then
        ({ m with cursor := m.cursor - 1 }).adjustViewport
      else m)
    else if s = "down" ∨ s = "j" then
      some (if m.cursor < (m.getVisibleNodes.length : Int) - 1 then
        ({ m with cursor := m.cursor + 1 }).adjustViewport
      else m)
    else if s = "enter" ∨ s = " " then
      (if m.cursor < (m.getVisibleNodes.length : Int) then
        (if m.cursor < 0 then none
         else some (({ m with nodes := toggleAt m.nodes m.cursor.toNat }).adjustViewport))
      else some m)
    else if s = "tab" then
      some { m with viewMode := (m.viewMode + 1) % 3, cursor := 0, viewportTop := 0 }
    else if s = "shift+tab" then
      some { m with viewMode := (if m.viewMode = 0 then 2 else m.viewMode - 1),
                    cursor := 0, viewportTop := 0 }
    else if s = "g" then
      some { m with cursor := 0, viewportTop := 0 }
    else if s = "G" then
      some (({ m with cursor := (m.getVisibleNodes.length : Int) - 1 }).adjustViewport)
    else if s = "e" then
      some { m with nodes := m.nodes.map (fun n => n.setExpanded true) }
    else if s = "c" then
      some { m with nodes := m.nodes.map (fun n => n.setExpanded false) }
    else some m

/-- Run a key/resize sequence from a starting state, propagating a panic. -/
def runMsgs (m : Model) : List Msg → Option Model
  | [] => some m
  | msg :: rest =>
    match m.Update msg with
    | none => none
    | some m2 => runMsgs m2 rest

/-! ## Example records shared by witnesses and counterexamples -/

/-- Drift info carrying only a file path (tracked, no error). -/
def exDrift (f : String) : DriftInfo :=
  { FilePath := f, IsTracked := true }

def exCreateB : ResourceChange :=
  { Address := "b", «Type» := "T", Action := .create,
    DriftInfo := some (exDrift "f.tf") }

def exDeleteA : ResourceChange :=
  { Address := "a", «Type» := "T", Action := .delete }

def exCreateC : ResourceChange :=
  { Address := "c", «Type» := "U", Action := .create,
    DriftInfo := some (exDrift "g.tf") }

def exModRec : ResourceChange :=
  { Address := "m.a", «Type» := "T", Module := "module.m", Action := .create }

def exLeaf1 : ResourceChange := { Address := "r1", «Type» := "t", Action := .create }
def exLeaf2 : ResourceChange := { Address := "r2", «Type» := "t", Action := .create }
def exLeaf3 : ResourceChange := { Address := "r3", «Type» := "t", Action := .create }
def exLeaf4 : ResourceChange := { Address := "r4", «Type» := "t", Action := .create }

def exGrp1 : ResourceChange :=
  { Address := "m.x", Module := "module.g", Action := .create }
def exGrp2 : ResourceChange :=
  { Address := "m.y", Module := "module.g", Action := .create }

/-- Header line offset of the cursor node, as `adjustViewport` and
`renderChangesView` compute it. -/
def cursorHeaderLine (m : Model) : Int :=
  (cursorLineStartOf m.getVisibleNodes m.cursor.toNat : Int)

/-- The viewport rule as §4.3 of the specification words it (max of start
and end−budget+1 when the node end falls at or below the window), for
comparison against the implementation. -/
def adjustTopSpec (start endLine top size : Int) : Int :=
  let t :=
    if start < top then start
    else if endLine ≥ top + size then max start (endLine - size + 1)
    else top
  if t < 0 then 0 else t

/-- Both sides are strings and at least one exceeds the 60-character
threshold (the side-by-side branch of `renderDiffComparison`). -/
def bothLongStrings (v w : Value) : Prop :=
  match v, w with
  | .vstr a, .vstr b => a.length > 60 ∨ b.length > 60
  | _, _ => False

/-! ## Theorems -/

/-- Claim C6, counterexample: the matching predicate does not treat absent
or type-conflicting indices as non-matching — two absent indices match, and
an integer 1 matches the string "1" (conflicting index types) because both
render to "1". -/
theorem C6_counterexample :
    indexMatches none none = true ∧
    indexMatches (some (Value.vnum 1)) (some (Value.vstr "1")) = true := by
  constructor
  · rfl
  · decide

/-- Claim C6 (amended): the replacement-pairing predicate is total and never
fails; a present index never matches an absent one; two absent indices
match; two present indices match exactly when their `%v` string renderings
coincide (so conflicting types with distinct renderings never match); and a
nonempty `findReplacementFile` result always comes from a create record of
the same resource type with a matching index and a known file. -/
theorem C6_indexMatches_findReplacementFile :
    (∀ v : Value, indexMatches (some v) none = false ∧
      indexMatches none (some v) = false) ∧
    indexMatches none none = true ∧
    (∀ v w : Value, goFormatV v ≠ goFormatV w →
      indexMatches (some v) (some w) = false) ∧
    (∀ (del : ResourceChange) (all : List ResourceChange),
      findReplacementFile del all ≠ "" →
      ∃ r ∈ all, r.Action = ChangeAction.create ∧ r.«Type» = del.«Type» ∧
        indexMatches r.Index del.Index = true ∧
        getResourceFileName r = findReplacementFile del all ∧
        getResourceFileName r ≠ "unknown.tf") := by
  refine ⟨fun v => ⟨rfl, rfl⟩, rfl, ?_, ?_⟩
  · intro v w h
    simp [indexMatches, h]
  · intro del all
    induction all with
    | nil => intro h; exact absurd rfl h
    | cons r rest ih =>
      intro h
      rw [findReplacementFile] at h ⊢
      by_cases hc : r.Action = ChangeAction.create ∧ r.«Type» = del.«Type» ∧
          indexMatches r.Index del.Index = true ∧
          getResourceFileName r ≠ "unknown.tf"
      · refine ⟨r, List.mem_cons_self .., hc.1, hc.2.1, hc.2.2.1, ?_, hc.2.2.2⟩
        rw [if_pos hc]
      · rw [if_neg hc] at h ⊢
        obtain ⟨r2, hr2, hprop⟩ := ih h
        exact ⟨r2, List.mem_cons_of_mem _ hr2, hprop⟩

/-- Claim C6, witness for the amended theorem: a mismatching rendering pair,
and a concrete delete whose replacement file is found. -/
theorem C6_witness :
    indexMatches (some (Value.vnum 1)) (some (Value.vstr "2")) = false ∧
    (∃ r ∈ [exCreateB], r.Action = ChangeAction.create ∧
      r.«Type» = exDeleteA.«Type» ∧
      indexMatches r.Index exDeleteA.Index = true ∧
      getResourceFileName r = findReplacementFile exDeleteA [exCreateB] ∧
      getResourceFileName r ≠ "unknown.tf") := by
  constructor
  · exact C6_indexMatches_findReplacementFile.2.2.1 _ _ (by decide)
  · exact C6_indexMatches_findReplacementFile.2.2.2 exDeleteA [exCreateB] (by decide)

/-- Claim C3, counterexample: the "deep equality" that elides unchanged keys
is `fmt.Sprintf("%v")` string equality, not value equality — the string "1"
and the number 1 are different values but diff to an empty (fully elided)
attribute diff. -/
theorem C3_counterexample :
    renderAttributeDiff "" [("a", Value.vstr "1")] [("a", Value.vnum 1)] = "" ∧
    Value.vstr "1" ≠ Value.vnum 1 := by
  constructor
  · decide
  · intro h
    exact Value.noConfusion h

/-- Claim C3 (amended): the attribute diff classifies keys by lookup — the
scenario before=(a=1,b=2), after=(a=1,c=3) yields exactly the removed entry
for b and the added entry for c (a elided), the two entries being precisely
the `-` and `+` renderings; a key present on both sides is elided exactly
when the two values' canonical `%v` renderings coincide (string rendering
equality, not deep value equality); and a changed key (within the inline
regime: not two over-60-character strings) renders one `~` line retaining
both formatted values. -/
theorem C3_renderAttributeDiff_classification :
    (renderAttributeDiff "" [("a", Value.vnum 1), ("b", Value.vnum 2)]
        [("a", Value.vnum 1), ("c", Value.vnum 3)]
      = "  - b = 2\n  + c = 3\n" ∧
     renderAttributeDiff "" [("a", Value.vnum 1), ("b", Value.vnum 2)]
        [("a", Value.vnum 1), ("c", Value.vnum 3)]
      = renderDiffValue "" "-" "b" (Value.vnum 2) 0
          ++ renderDiffValue "" "+" "c" (Value.vnum 3) 0) ∧
    (∀ (ind k : String) (v w : Value) (d : Nat), d ≤ 5 →
      goFormatV v = goFormatV w → renderDiffComparison ind k v w d = "") ∧
    (∀ (ind k : String) (v w : Value), goFormatV v ≠ goFormatV w →
      ¬ bothLongStrings v w →
      renderDiffComparison ind k v w 0 =
        ind ++ "  ~ " ++ k ++ ": " ++ formatInlineScalar v ++ " → "
          ++ formatInlineScalar w ++ "\n") := by
  refine ⟨⟨by decide, by decide⟩, ?_, ?_⟩
  · intro ind k v w d hd heq
    simp only [renderDiffComparison]
    rw [if_neg (by omega), if_pos heq]
  · intro ind k v w hne hnb
    simp only [renderDiffComparison]
    rw [if_neg (by omega), if_neg hne]
    rcases v with _ | b | n | sv | xs | fs <;>
      rcases w with _ | b2 | n2 | sw | ys | gs <;>
      simp only []
    simp only [bothLongStrings] at hnb
    rw [if_neg (by omega)]

/-- Claim C3, witness for the amended theorem: elision of equal renderings
and the inline changed line, at concrete values. -/
theorem C3_witness :
    renderDiffComparison "" "k" (Value.vnum 5) (Value.vnum 5) 0 = "" ∧
    renderDiffComparison "" "k" (Value.vnum 1) (Value.vnum 2) 0 =
      "" ++ "  ~ " ++ "k" ++ ": " ++ formatInlineScalar (Value.vnum 1) ++ " → "
        ++ formatInlineScalar (Value.vnum 2) ++ "\n" := by
  constructor
  · exact C3_renderAttributeDiff_classification.2.1 "" "k" _ _ 0 (by omega) rfl
  · exact C3_renderAttributeDiff_classification.2.2 "" "k" _ _ (by decide)
      (fun h => h)

/-- Claim C4: the navigation transitions are not total over reachable
states — with an empty visible sequence, jump-bottom sets the cursor to −1
instead of degrading to a no-op, and a following toggle (Enter/space) makes
Go index `visibleNodes[-1]`, a runtime panic (modelled as `none`). -/
theorem C4_jump_bottom_empty_panics :
    (runMsgs (NewModel []) [Msg.key "G"]).map Model.cursor = some (-1) ∧
    runMsgs (NewModel []) [Msg.key "G", Msg.key "enter"] = none := by
  exact ⟨rfl, rfl⟩

/-- Claim C9, counterexample: a partition that collapses to a single group
is *not* flattened when its key is a module — a lone non-root module still
produces a synthetic header node with the record as child; and conversely
the root partition's single file group is flattened even when a sibling
module group exists. -/
theorem C9_counterexample :
    ((buildTreeNodes [exModRec]).map
        (fun n => (n.Resource.«Type», n.Resource.Address, n.Children.length)))
      = [("module", "module.m", 1)] ∧
    ((buildTreeNodes [exCreateB, exModRec]).map
        (fun n => (n.Resource.«Type», n.Resource.Address, n.Children.length)))
      = [("module", "module.m", 1), ("T", "b", 0)] := by
  exact ⟨rfl, rfl⟩

def exM5 : Model := NewModel [exGrp1, exGrp2, exLeaf1]

/-- Claim C5, counterexample: expand-all sets only the top-level nodes'
flags (children keep theirs — here both stay `false`), and expand-all
followed by collapse-all does not restore the pre-expand-all visible
sequence (the group expanded beforehand ends up collapsed). -/
theorem C5_counterexample :
    ((runMsgs exM5 [Msg.key "enter", Msg.key "e"]).map
        (fun m => m.getVisibleNodes.map (fun n => (n.Resource.Address, n.Expanded))))
      = some [("module.g", true), ("m.x", false), ("m.y", false), ("r1", true)] ∧
    ((runMsgs exM5 [Msg.key "enter"]).map
        (fun m => m.getVisibleNodes.map (fun n => n.Resource.Address)))
      = some ["module.g", "m.x", "m.y", "r1"] ∧
    ((runMsgs exM5 [Msg.key "enter", Msg.key "e", Msg.key "c"]).map
        (fun m => m.getVisibleNodes.map (fun n => n.Resource.Address)))
      = some ["module.g", "r1"] := by
  exact ⟨rfl, rfl, rfl⟩

def exM2 : Model := NewModel [exLeaf1, exLeaf2, exLeaf3]

/-- Claim C2, counterexample: expand-all does not re-adjust the viewport —
after two move-downs (budget 2) and expand-all, the cursor node's header
line is 10 while the window is [1, 3), so the header is not visible. -/
theorem C2_counterexample :
    ((runMsgs exM2 [Msg.windowSize 80 12, Msg.key "down", Msg.key "down",
        Msg.key "e"]).map
      (fun m => (cursorHeaderLine m, m.viewportTop, m.viewportSize)))
      = some (10, 1, 2) ∧
    ¬ ((1 : Int) ≤ 10 ∧ (10 : Int) < 1 + 2) := by
  exact ⟨rfl, by decide⟩

def exM8 : Model := NewModel [exLeaf1, exLeaf2, exLeaf3, exLeaf4]

/-- Claim C8, counterexample to the general rule as stated: with four
one-line nodes and budget 3, the third move-down starts from (cursor 2,
top 0) and the code scrolls to top 1 (= end − budget + 1), while the
specification's `max(start, end − budget + 1)` = max(3, 1) would give 3. -/
theorem C8_counterexample :
    ((runMsgs exM8 [Msg.windowSize 80 13, Msg.key "down", Msg.key "down"]).map
        (fun m => (m.cursor, m.viewportTop))) = some (2, 0) ∧
    ((runMsgs exM8 [Msg.windowSize 80 13, Msg.key "down", Msg.key "down",
        Msg.key "down"]).map
        (fun m => (m.cursor, m.viewportTop))) = some (3, 1) ∧
    adjustTopSpec 3 3 0 3 = 3 ∧ ((1 : Int) ≠ 3) := by
  refine ⟨rfl, rfl, by decide, by decide⟩

lemma nodeLines_pos (n : TreeNode) : 1 ≤ nodeLines n := by
  unfold nodeLines; omega

/-- Claim C2 (amended): the viewport invariant is re-established by
`adjustViewport`, hence holds after every event that invokes it (cursor
moves via up/down/jump-bottom and toggle-expand): with a positive row
budget and a nonempty visible sequence, the adjusted state places the
cursor node's header line inside `[viewportTop, viewportTop +
viewportSize)`.  Expand-all, collapse-all, view switches and resizes do not
invoke the adjustment, and the invariant can fail after them
(see the counterexample). -/
theorem C2_adjustViewport_invariant :
    ∀ m : Model, 1 ≤ m.viewportSize → m.getVisibleNodes.length ≠ 0 →
      (m.adjustViewport).viewportTop ≤ cursorHeaderLine m.adjustViewport ∧
      cursorHeaderLine m.adjustViewport <
        (m.adjustViewport).viewportTop + (m.adjustViewport).viewportSize := by
  intro m hB hne
  unfold Model.adjustViewport
  rw [if_neg hne]
  simp only [cursorHeaderLine]
  have hvs : ∀ c t : Int,
      ({ m with cursor := c, viewportTop := t } : Model).getVisibleNodes
        = m.getVisibleNodes := fun _ _ => rfl
  simp only [hvs]
  set vs := m.getVisibleNodes with hvsdef
  set c1 : Int := if m.cursor ≥ (vs.length : Int) then (vs.length : Int) - 1 else m.cursor with hc1
  set c : Int := if c1 < 0 then 0 else c1 with hc
  set S : Int := (cursorLineStartOf vs c.toNat : Int) with hS
  set L : Int := (nodeLines (vs.getD c.toNat default) : Int) with hL
  have hS0 : 0 ≤ S := by positivity
  have hL1 : 1 ≤ L := by
    have := nodeLines_pos (vs.getD c.toNat default)
    omega
  set T : Int := m.viewportTop with hT
  set B : Int := m.viewportSize with hB2
  split_ifs <;> constructor <;> omega

/-- Claim C2, witness: the invariant at a concrete adjusted state. -/
theorem C2_witness :
    ((NewModel [exLeaf1]).adjustViewport).viewportTop ≤
      cursorHeaderLine (NewModel [exLeaf1]).adjustViewport ∧
    cursorHeaderLine (NewModel [exLeaf1]).adjustViewport <
      ((NewModel [exLeaf1]).adjustViewport).viewportTop +
        ((NewModel [exLeaf1]).adjustViewport).viewportSize :=
  C2_adjustViewport_invariant (NewModel [exLeaf1]) (by decide) (by decide)

lemma flatMap_visible_collapsed (ns : List TreeNode)
    (h : ∀ n ∈ ns, n.Expanded = false) :
    ns.flatMap (fun node =>
      node :: (if node.Expanded ∧ node.Children.length > 0 then node.Children
               else [])) = ns := by
  induction ns with
  | nil => rfl
  | cons n ns ih =>
    rw [List.flatMap_cons]
    rw [if_neg (by simp [h n (List.mem_cons_self n ns)])]
    rw [ih (fun x hx => h x (List.mem_cons_of_mem _ hx))]
    rfl

lemma getVisibleNodes_collapsed (m : Model)
    (h : ∀ n ∈ m.nodes, n.Expanded = false) :
    m.getVisibleNodes = m.nodes :=
  flatMap_visible_collapsed m.nodes h

lemma nodeLines_collapsed (n : TreeNode) (h : n.Expanded = false) :
    nodeLines n = 1 := by
  unfold nodeLines detailNewlineCount
  rw [if_neg (by simp [h])]

lemma sum_nodeLines_collapsed (l : List TreeNode)
    (h : ∀ n ∈ l, n.Expanded = false) :
    (l.map nodeLines).sum = l.length := by
  induction l with
  | nil => rfl
  | cons n ns ih =>
    rw [List.map_cons, List.sum_cons,
      nodeLines_collapsed n (h n (List.mem_cons_self n ns)),
      ih (fun x hx => h x (List.mem_cons_of_mem _ hx)), List.length_cons]
    omega

lemma cursorLineStartOf_collapsed (vs : List TreeNode) (k : Nat)
    (h : ∀ n ∈ vs, n.Expanded = false) (hk : k ≤ vs.length) :
    cursorLineStartOf vs k = k := by
  unfold cursorLineStartOf
  rw [sum_nodeLines_collapsed _ (fun n hn => h n (List.mem_of_mem_take hn))]
  rw [List.length_take]
  omega

/-- Viewport rule, corrected: when the cursor node's end falls at or below
the window, the new top is `min(start, end − budget + 1)` (the whole node
when it fits, its header otherwise), not the spec's max. -/
lemma adjustViewport_top_rule (m : Model) (hne : m.getVisibleNodes.length ≠ 0)
    (h0 : 0 ≤ m.cursor) (hlt : m.cursor < (m.getVisibleNodes.length : Int)) :
    (m.adjustViewport).viewportTop =
      (let S : Int := (cursorLineStartOf m.getVisibleNodes m.cursor.toNat : Int)
       let L : Int := (nodeLines (m.getVisibleNodes.getD m.cursor.toNat default) : Int)
       let E : Int := S + L - 1
       max 0 (if S < m.viewportTop then S
              else if E ≥ m.viewportTop + m.viewportSize then
                min S (E - m.viewportSize + 1)
              else m.viewportTop)) := by
  unfold Model.adjustViewport
  rw [if_neg hne]
  simp only [if_neg (show ¬ m.cursor ≥ (m.getVisibleNodes.length : Int) by omega),
    if_neg (show ¬ m.cursor < 0 by omega)]
  split_ifs <;> omega

lemma adjustViewport_basic (m : Model) (hne : m.getVisibleNodes.length ≠ 0)
    (h0 : 0 ≤ m.cursor) (hlt : m.cursor < (m.getVisibleNodes.length : Int)) :
    (m.adjustViewport).nodes = m.nodes ∧ (m.adjustViewport).cursor = m.cursor ∧
    (m.adjustViewport).viewportSize = m.viewportSize := by
  unfold Model.adjustViewport
  rw [if_neg hne]
  refine ⟨rfl, ?_, rfl⟩
  simp only [if_neg (show ¬ m.cursor ≥ (m.getVisibleNodes.length : Int) by omega),
    if_neg (show ¬ m.cursor < 0 by omega)]

lemma down_step (m : Model) (hcoll : ∀ n ∈ m.nodes, n.Expanded = false)
    (hne : m.nodes ≠ []) (hB : 1 ≤ m.viewportSize)
    (h0 : 0 ≤ m.cursor) (hlt : m.cursor < (m.nodes.length : Int))
    (htop : m.viewportTop = max 0 (m.cursor - m.viewportSize + 1)) :
    ∃ m2, m.Update (Msg.key "down") = some m2 ∧ m2.nodes = m.nodes ∧
      m2.viewportSize = m.viewportSize ∧
      m2.cursor = min (m.cursor + 1) ((m.nodes.length : Int) - 1) ∧
      m2.viewportTop = max 0 (m2.cursor - m.viewportSize + 1) := by
  have hvis : m.getVisibleNodes = m.nodes := getVisibleNodes_collapsed m hcoll
  have hlen0 : m.nodes.length ≠ 0 := fun h => hne (List.length_eq_zero.mp h)
  simp only [Model.Update]
  rw [if_neg (show ¬ (("down" : String) = "ctrl+c" ∨ ("down" : String) = "q") by decide),
    if_neg (show ¬ (("down" : String) = "up" ∨ ("down" : String) = "k") by decide),
    if_pos (show (True ∨ ("down" : String) = "j") from Or.inl trivial)]
  rw [hvis]
  by_cases hend : m.cursor < (m.nodes.length : Int) - 1
  · rw [if_pos hend]
    set m1 : Model := { m with cursor := m.cursor + 1 } with hm1
    have hvis1 : m1.getVisibleNodes = m.nodes := getVisibleNodes_collapsed m1 hcoll
    have hne1 : m1.getVisibleNodes.length ≠ 0 := by rw [hvis1]; exact hlen0
    have h01 : 0 ≤ m1.cursor := by simp only [hm1]; omega
    have hlt1 : m1.cursor < (m1.getVisibleNodes.length : Int) := by
      rw [hvis1]; simp only [hm1]; omega
    obtain ⟨hn, hc, hs⟩ := adjustViewport_basic m1 hne1 h01 hlt1
    refine ⟨m1.adjustViewport, rfl, hn, hs, ?_, ?_⟩
    · rw [hc]; simp only [hm1]; omega
    · have hrule := adjustViewport_top_rule m1 hne1 h01 hlt1
      rw [hrule, hc]
      have hk : m1.cursor.toNat ≤ m1.getVisibleNodes.length := by
        rw [hvis1]; simp only [hm1]; omega
      have hstart : cursorLineStartOf m1.getVisibleNodes m1.cursor.toNat
          = m1.cursor.toNat := by
        refine cursorLineStartOf_collapsed _ _ ?_ hk
        rw [hvis1]; exact hcoll
      have hkk : m1.cursor.toNat < m1.getVisibleNodes.length := by
        rw [hvis1]; simp only [hm1]; omega
      have hL : nodeLines (m1.getVisibleNodes.getD m1.cursor.toNat default) = 1 := by
        rw [hvis1]
        rw [hvis1] at hkk
        refine nodeLines_collapsed _ (hcoll _ ?_)
        rw [List.getD_eq_getElem _ _ hkk]
        exact List.getElem_mem hkk
      have hcast : ((m1.cursor.toNat : Int)) = m1.cursor := by
        simp only [hm1]; omega
      have hc1 : m1.cursor = m.cursor + 1 := rfl
      have htop1 : m1.viewportTop = m.viewportTop := rfl
      have hsz1 : m1.viewportSize = m.viewportSize := rfl
      simp only [hstart, hL, hcast, hc1, htop1, hsz1, htop]
      split_ifs <;> omega
  · rw [if_neg hend]
    refine ⟨m, rfl, rfl, rfl, by omega, by rw [htop]⟩

lemma downs_formula (N : Nat) : ∀ (m : Model),
    (∀ n ∈ m.nodes, n.Expanded = false) → m.nodes ≠ [] →
    1 ≤ m.viewportSize → 0 ≤ m.cursor → m.cursor < (m.nodes.length : Int) →
    m.viewportTop = max 0 (m.cursor - m.viewportSize + 1) →
    ∃ m2, runMsgs m (List.replicate N (Msg.key "down")) = some m2 ∧
      m2.cursor = min (m.cursor + N) ((m.nodes.length : Int) - 1) ∧
      m2.viewportTop = max 0 (m2.cursor - m2.viewportSize + 1) ∧
      m2.viewportSize = m.viewportSize ∧ m2.nodes = m.nodes := by
  induction N with
  | zero =>
    intro m hcoll hne hB h0 hlt htop
    exact ⟨m, rfl, by omega, by rw [htop], rfl, rfl⟩
  | succ n ih =>
    intro m hcoll hne hB h0 hlt htop
    obtain ⟨m1, hup, hn1, hs1, hc1, ht1⟩ := down_step m hcoll hne hB h0 hlt htop
    have hlen : (0 : Int) < (m.nodes.length : Int) := by
      have := List.length_pos.mpr hne
      omega
    obtain ⟨m2, hrun, hc2, ht2, hs2, hn2⟩ := ih m1
      (by rw [hn1]; exact hcoll) (by rw [hn1]; exact hne)
      (by rw [hs1]; exact hB) (by omega)
      (by rw [hn1]; omega) (by rw [ht1, hs1])
    rw [List.replicate_succ]
    refine ⟨m2, ?_, ?_, ht2, by omega, by rw [hn2, hn1]⟩
    · show runMsgs m (Msg.key "down" :: List.replicate n (Msg.key "down")) = some m2
      unfold runMsgs
      rw [hup]
      exact hrun
    · rw [hc2, hc1, hn1]
      omega

/-- Claim C8 (amended): starting from cursor 0 and first visible line 0 over
collapsed (1-line) nodes with row budget B ≥ 1, N consecutive move-downs
give cursor = min(N, len(visible)−1) and firstVisibleLine = max(0, cursor −
B + 1); in general the viewport update sets the top to the cursor's start
line when the start is above the window, and when the cursor's end reaches
the window bottom to min(cursor start, cursor end − budget + 1) — the whole
node when it fits the budget, its header otherwise; the specification's
`max(cursor start, cursor end − budget + 1)` is the code's `min` — and the
result is clamped to be non-negative. -/
theorem C8_moveDown_and_viewport_rule :
    (∀ (N : Nat) (m : Model),
      (∀ n ∈ m.nodes, n.Expanded = false) → m.nodes ≠ [] →
      1 ≤ m.viewportSize → m.cursor = 0 → m.viewportTop = 0 →
      ∃ m2, runMsgs m (List.replicate N (Msg.key "down")) = some m2 ∧
        m2.cursor = min (N : Int) ((m.getVisibleNodes.length : Int) - 1) ∧
        m2.viewportTop = max 0 (m2.cursor - m.viewportSize + 1)) ∧
    (∀ m : Model, m.getVisibleNodes.length ≠ 0 → 0 ≤ m.cursor →
      m.cursor < (m.getVisibleNodes.length : Int) →
      (m.adjustViewport).viewportTop =
        (let S : Int := (cursorLineStartOf m.getVisibleNodes m.cursor.toNat : Int)
         let L : Int := (nodeLines (m.getVisibleNodes.getD m.cursor.toNat default) : Int)
         let E : Int := S + L - 1
         max 0 (if S < m.viewportTop then S
                else if E ≥ m.viewportTop + m.viewportSize then
                  min S (E - m.viewportSize + 1)
                else m.viewportTop))) := by
  constructor
  · intro N m hcoll hne hB hc ht
    have hvis := getVisibleNodes_collapsed m hcoll
    have hlen : (0 : Int) < (m.nodes.length : Int) := by
      exact_mod_cast List.length_pos.mpr hne
    obtain ⟨m2, hrun, hcur, htop, hsz, _⟩ := downs_formula N m hcoll hne hB
      (by omega) (by omega) (by rw [hc, ht]; omega)
    refine ⟨m2, hrun, ?_, ?_⟩
    · rw [hcur, hc, hvis]; omega
    · rw [htop, hsz]
  · exact adjustViewport_top_rule

/-- Claim C8, witness: one move-down over two collapsed one-line nodes, and
the general rule at a fresh two-node model. -/
theorem C8_witness :
    (∃ m2, runMsgs (NewModel [exLeaf1, exLeaf2])
        (List.replicate 1 (Msg.key "down")) = some m2 ∧
      m2.cursor = min (1 : Int)
        (((NewModel [exLeaf1, exLeaf2]).getVisibleNodes.length : Int) - 1) ∧
      m2.viewportTop = max 0
        (m2.cursor - (NewModel [exLeaf1, exLeaf2]).viewportSize + 1)) ∧
    ((NewModel [exLeaf1]).adjustViewport).viewportTop =
      (let S : Int := (cursorLineStartOf (NewModel [exLeaf1]).getVisibleNodes
        (NewModel [exLeaf1]).cursor.toNat : Int)
       let L : Int := (nodeLines ((NewModel [exLeaf1]).getVisibleNodes.getD
        (NewModel [exLeaf1]).cursor.toNat default) : Int)
       let E : Int := S + L - 1
       max 0 (if S < (NewModel [exLeaf1]).viewportTop then S
              else if E ≥ (NewModel [exLeaf1]).viewportTop +
                  (NewModel [exLeaf1]).viewportSize then
                min S (E - (NewModel [exLeaf1]).viewportSize + 1)
              else (NewModel [exLeaf1]).viewportTop)) := by
  constructor
  · refine C8_moveDown_and_viewport_rule.1 1 (NewModel [exLeaf1, exLeaf2])
      (by decide) ?_ (by decide) rfl rfl
    intro h
    have hl : (NewModel [exLeaf1, exLeaf2]).nodes.length = 2 := rfl
    rw [h] at hl
    exact absurd hl (by decide)
  · exact C8_moveDown_and_viewport_rule.2 (NewModel [exLeaf1]) (by decide)
      (by decide) (by decide)

/-- Claim C5 (amended): expand-all and collapse-all set every *top-level*
node's expansion flag uniformly, leave every child subtree (including child
expansion flags) untouched, and do not move the cursor; expand-all followed
immediately by collapse-all yields the fully-collapsed visible sequence,
which equals the pre-expand-all visible sequence (with the cursor index
unchanged, hence resolving to the same node) whenever every top-level node
was already collapsed beforehand. -/
theorem C5_expandAll_collapseAll :
    (∀ m : Model, ∃ m2, m.Update (Msg.key "e") = some m2 ∧
      m2.cursor = m.cursor ∧ m2.viewportTop = m.viewportTop ∧
      (∀ n ∈ m2.nodes, n.Expanded = true) ∧
      m2.nodes.map TreeNode.Children = m.nodes.map TreeNode.Children ∧
      m2.nodes.map TreeNode.Resource = m.nodes.map TreeNode.Resource) ∧
    (∀ m : Model, ∃ m2, m.Update (Msg.key "c") = some m2 ∧
      m2.cursor = m.cursor ∧ m2.viewportTop = m.viewportTop ∧
      (∀ n ∈ m2.nodes, n.Expanded = false) ∧
      m2.nodes.map TreeNode.Children = m.nodes.map TreeNode.Children ∧
      m2.nodes.map TreeNode.Resource = m.nodes.map TreeNode.Resource) ∧
    (∀ m : Model, (∀ n ∈ m.nodes, n.Expanded = false) →
      ∃ m2, runMsgs m [Msg.key "e", Msg.key "c"] = some m2 ∧
        m2.getVisibleNodes = m.getVisibleNodes ∧ m2.cursor = m.cursor) := by
  refine ⟨?_, ?_, ?_⟩
  · intro m
    refine ⟨{ m with nodes := m.nodes.map (fun n => n.setExpanded true) },
      rfl, rfl, rfl, ?_, ?_, ?_⟩
    · intro n hn
      obtain ⟨x, _, rfl⟩ := List.mem_map.mp hn
      cases x; rfl
    · rw [List.map_map]
      apply List.map_congr_left
      intro x _
      cases x; rfl
    · rw [List.map_map]
      apply List.map_congr_left
      intro x _
      cases x; rfl
  · intro m
    refine ⟨{ m with nodes := m.nodes.map (fun n => n.setExpanded false) },
      rfl, rfl, rfl, ?_, ?_, ?_⟩
    · intro n hn
      obtain ⟨x, _, rfl⟩ := List.mem_map.mp hn
      cases x; rfl
    · rw [List.map_map]
      apply List.map_congr_left
      intro x _
      cases x; rfl
    · rw [List.map_map]
      apply List.map_congr_left
      intro x _
      cases x; rfl
  · intro m hcoll
    refine ⟨{ m with nodes := (m.nodes.map (fun n => n.setExpanded true)).map (fun n => n.setExpanded false) }, rfl, ?_, rfl⟩
    have hnodes : (m.nodes.map (fun n => n.setExpanded true)).map
        (fun n => n.setExpanded false) = m.nodes := by
      rw [List.map_map]
      have : ∀ x ∈ m.nodes,
          ((fun n => TreeNode.setExpanded n false) ∘
            (fun n => TreeNode.setExpanded n true)) x = id x := by
        intro x hx
        have := hcoll x hx
        cases x with
        | mk r e cs l =>
          simp only [TreeNode.Expanded] at this
          simp [TreeNode.setExpanded, this]
      rw [List.map_congr_left this, List.map_id]
    show Model.getVisibleNodes _ = Model.getVisibleNodes m
    unfold Model.getVisibleNodes
    rw [hnodes]

/-- Claim C5, witness: the round trip at a fully collapsed fresh state. -/
theorem C5_witness :
    ∃ m2, runMsgs (NewModel [exLeaf1]) [Msg.key "e", Msg.key "c"] = some m2 ∧
      m2.getVisibleNodes = (NewModel [exLeaf1]).getVisibleNodes ∧
      m2.cursor = (NewModel [exLeaf1]).cursor :=
  C5_expandAll_collapseAll.2.2 (NewModel [exLeaf1]) (by decide)

lemma dedup_all_eq {l : List String} {c : String} (h : ∀ x ∈ l, x = c)
    (hne : l ≠ []) : l.dedup = [c] := by
  induction l with
  | nil => exact absurd rfl hne
  | cons x t ih =>
    have hx : x = c := h x (List.mem_cons_self x t)
    subst hx
    by_cases ht : t = []
    · subst ht; rfl
    · have hmem : x ∈ t := by
        obtain ⟨y, ys, rfl⟩ := List.exists_cons_of_ne_nil ht
        have := h y (List.mem_cons_of_mem _ (List.mem_cons_self y ys))
        rw [this]
        exact List.mem_cons_self _ _
      rw [List.dedup_cons_of_mem hmem]
      exact ih (fun z hz => h z (List.mem_cons_of_mem _ hz)) ht

lemma sortStrings_singleton (c : String) : sortStrings [c] = [c] := rfl

lemma rootLocated_all {ms : List ResourceChange} {f : String}
    (hf : f ≠ "unknown.tf") (hall : ∀ r ∈ ms, getResourceFileName r = f) :
    rootLocated ms = ms := by
  unfold rootLocated
  refine List.filter_eq_self.mpr ?_
  intro a ha
  simp [hall a ha, hf]

lemma rootUngrouped0_nil {ms : List ResourceChange} {f : String}
    (hf : f ≠ "unknown.tf") (hall : ∀ r ∈ ms, getResourceFileName r = f) :
    rootUngrouped0 ms = [] := by
  unfold rootUngrouped0
  refine List.filter_eq_nil_iff.mpr ?_
  intro a ha
  simp [hall a ha, hf]

/-- The root partition with a single known file and nothing unplaced is
flattened: its records become top-level leaves, no header node. -/
lemma buildModuleNodes_root_single_file (ms : List ResourceChange)
    (f : String) (hf : f ≠ "unknown.tf")
    (hall : ∀ r ∈ ms, getResourceFileName r = f) (hne : ms ≠ []) :
    buildModuleNodes "root" ms = ms.map (fun r => leafNode r 0) := by
  have hu0 := rootUngrouped0_nil hf hall
  have hloc := rootLocated_all hf hall
  have hrel : rootRelocated ms = [] := by unfold rootRelocated; rw [hu0]; rfl
  have hung : rootUngrouped ms = [] := by unfold rootUngrouped; rw [hu0]; rfl
  have hnames : rootFileNames ms = [f] := by
    unfold rootFileNames
    rw [hloc, dedup_all_eq (c := f) ?_ ?_]
    · exact sortStrings_singleton f
    · intro x hx
      obtain ⟨r, hr, rfl⟩ := List.mem_map.mp hx
      exact hall r hr
    · intro h
      exact hne (List.map_eq_nil_iff.mp h)
  unfold buildModuleNodes
  rw [if_pos rfl, hnames, hung]
  rw [if_pos (by constructor <;> rfl)]
  have hgrp : rootFileGroup ms ([f].headD "") = ms := by
    show rootFileGroup ms f = ms
    unfold rootFileGroup
    rw [hrel, hloc]
    rw [List.filter_eq_self.mpr (fun a ha => by simp [hall a ha])]
    simp
  rw [hgrp]
  simp

/-- Claim C9 (amended): the single-group flattening applies exactly to the
root partition's file grouping — when every changing record is a root-module
record resolving to one known file, the builder attaches the address-sorted
records directly at top level with no header node; a non-root module
partition, by contrast, always receives a synthetic module header, even
when it is the only partition. -/
theorem C9_flatten_rule :
    (∀ (rs : List ResourceChange) (f : String), f ≠ "unknown.tf" →
      (∀ r ∈ rs, r.Action ≠ ChangeAction.noop →
        moduleKey r = "root" ∧ getResourceFileName r = f) →
      buildTreeNodes rs =
        (sortByAddress (rs.filter (fun r => r.Action ≠ ChangeAction.noop))).map
          (fun r => leafNode r 0)) ∧
    (∀ (rs : List ResourceChange) (M : String), M ≠ "root" →
      (∀ r ∈ rs, r.Action ≠ ChangeAction.noop → moduleKey r = M) →
      (∃ r ∈ rs, r.Action ≠ ChangeAction.noop) →
      ∃ firstRes rest,
        sortByAddress (rs.filter (fun r => r.Action ≠ ChangeAction.noop))
          = firstRes :: rest ∧
        buildTreeNodes rs =
          [TreeNode.mk (moduleGroupRecord M firstRes) false
            ((sortByAddress
              (rs.filter (fun r => r.Action ≠ ChangeAction.noop))).map
              (fun r => leafNode r 1)) 0]) := by
  constructor
  · intro rs f hf hall
    unfold buildTreeNodes
    set changing := rs.filter (fun r => r.Action ≠ ChangeAction.noop) with hch
    have hchmem : ∀ r ∈ changing,
        moduleKey r = "root" ∧ getResourceFileName r = f := by
      intro r hr
      have := List.of_mem_filter hr
      exact hall r (List.mem_of_mem_filter hr) (by simpa using this)
    by_cases hemp : changing = []
    · rw [hemp]
      rfl
    · have hnames : sortStrings (changing.map moduleKey).dedup = ["root"] := by
        rw [dedup_all_eq (c := "root") ?_ ?_]
        · exact sortStrings_singleton "root"
        · intro x hx
          obtain ⟨r, hr, rfl⟩ := List.mem_map.mp hx
          exact (hchmem r hr).1
        · simpa using hemp
      simp only []
      rw [hnames]
      have hfilter : changing.filter (fun r => moduleKey r = "root") = changing :=
        List.filter_eq_self.mpr (fun a ha => by simp [(hchmem a ha).1])
      show buildModuleBlock changing "root" ++ [] = _
      rw [List.append_nil]
      unfold buildModuleBlock
      rw [hfilter]
      have hsortmem : ∀ r ∈ sortByAddress changing, getResourceFileName r = f := by
        intro r hr
        exact (hchmem r ((List.perm_insertionSort addrLe changing).mem_iff.mp hr)).2
      have hsortne : sortByAddress changing ≠ [] := by
        have hlen : (sortByAddress changing).length = changing.length :=
          (List.perm_insertionSort addrLe changing).length_eq
        intro h
        rw [h] at hlen
        exact hemp (List.length_eq_zero.mp hlen.symm)
      exact buildModuleNodes_root_single_file _ f hf hsortmem hsortne
  · intro rs M hM hall hex
    unfold buildTreeNodes
    set changing := rs.filter (fun r => r.Action ≠ ChangeAction.noop) with hch
    have hchmem : ∀ r ∈ changing, moduleKey r = M := by
      intro r hr
      have := List.of_mem_filter hr
      exact hall r (List.mem_of_mem_filter hr) (by simpa using this)
    have hemp : changing ≠ [] := by
      obtain ⟨r, hr, hact⟩ := hex
      intro h
      have : r ∈ changing := List.mem_filter.mpr ⟨hr, by simpa using hact⟩
      rw [h] at this
      exact List.not_mem_nil r this
    have hnames : sortStrings (changing.map moduleKey).dedup = [M] := by
      rw [dedup_all_eq (c := M) ?_ ?_]
      · exact sortStrings_singleton M
      · intro x hx
        obtain ⟨r, hr, rfl⟩ := List.mem_map.mp hx
        exact hchmem r hr
      · simpa using hemp
    have hfilter : changing.filter (fun r => moduleKey r = M) = changing :=
      List.filter_eq_self.mpr (fun a ha => by simp [hchmem a ha])
    have hsortne : sortByAddress changing ≠ [] := by
      have hlen : (sortByAddress changing).length = changing.length :=
        (List.perm_insertionSort addrLe changing).length_eq
      intro h
      rw [h] at hlen
      exact hemp (List.length_eq_zero.mp hlen.symm)
    obtain ⟨firstRes, rest, hcons⟩ := List.exists_cons_of_ne_nil hsortne
    refine ⟨firstRes, rest, hcons, ?_⟩
    simp only []
    rw [hnames]
    show buildModuleBlock changing M ++ [] = _
    rw [List.append_nil]
    unfold buildModuleBlock
    rw [hfilter]
    unfold buildModuleNodes
    rw [if_neg hM, hcons]

/-- Claim C9, witness: the module case at a lone non-root module record, and
the root case at a lone located record. -/
theorem C9_witness :
    buildTreeNodes [exCreateB] =
      (sortByAddress ([exCreateB].filter
        (fun r => r.Action ≠ ChangeAction.noop))).map (fun r => leafNode r 0) ∧
    (∃ firstRes rest,
      sortByAddress ([exModRec].filter
        (fun r => r.Action ≠ ChangeAction.noop)) = firstRes :: rest ∧
      buildTreeNodes [exModRec] =
        [TreeNode.mk (moduleGroupRecord "module.m" firstRes) false
          ((sortByAddress ([exModRec].filter
            (fun r => r.Action ≠ ChangeAction.noop))).map
            (fun r => leafNode r 1)) 0]) := by
  constructor
  · exact C9_flatten_rule.1 [exCreateB] "f.tf" (by decide)
      (by intro r hr _; simp at hr; subst hr; exact ⟨rfl, rfl⟩)
  · exact C9_flatten_rule.2 [exModRec] "module.m" (by decide)
      (by intro r hr _; simp at hr; subst hr; rfl)
      ⟨exModRec, by simp, by decide⟩

lemma sortStrings_sorted (l : List String) : (sortStrings l).Sorted strLe :=
  List.sorted_insertionSort strLe l

lemma sortStrings_perm (l : List String) : List.Perm (sortStrings l) l :=
  List.perm_insertionSort strLe l

lemma sortStrings_perm_eq {l₁ l₂ : List String} (h : List.Perm l₁ l₂) :
    sortStrings l₁ = sortStrings l₂ :=
  List.eq_of_perm_of_sorted
    (((sortStrings_perm l₁).trans h).trans (sortStrings_perm l₂).symm)
    (sortStrings_sorted l₁) (sortStrings_sorted l₂)

lemma sortByAddress_sorted (l : List ResourceChange) :
    (sortByAddress l).Sorted addrLe :=
  List.sorted_insertionSort addrLe l

lemma sortByAddress_perm (l : List ResourceChange) :
    List.Perm (sortByAddress l) l :=
  List.perm_insertionSort addrLe l

lemma strLe_antisymm {a b : String} (h1 : strLe a b) (h2 : strLe b a) : a = b := by
  cases a; cases b
  exact congrArg String.mk (le_antisymm h1 h2)

/-- Two address-sorted permutations of each other with pairwise-distinct
addresses are equal (the Go `sort.Slice` by address is deterministic on the
distinct addresses the data model guarantees). -/
lemma eq_of_perm_of_sorted_addr : ∀ {l₁ l₂ : List ResourceChange},
    List.Perm l₁ l₂ → l₁.Sorted addrLe → l₂.Sorted addrLe →
    (l₁.map ResourceChange.Address).Nodup → l₁ = l₂ := by
  intro l₁
  induction l₁ with
  | nil =>
    intro l₂ h _ _ _
    exact (List.Perm.nil_eq h).symm ▸ rfl
  | cons a t₁ ih =>
    intro l₂ h s₁ s₂ nd
    obtain ⟨b, t₂, rfl⟩ : ∃ b t₂, l₂ = b :: t₂ := by
      cases l₂ with
      | nil => exact absurd h.symm.nil_eq (by simp)
      | cons b t₂ => exact ⟨b, t₂, rfl⟩
    obtain ⟨ha1, hs₁⟩ := List.sorted_cons.mp s₁
    obtain ⟨hb1, hs₂⟩ := List.sorted_cons.mp s₂
    have hab : a = b := by
      have hbmem : b ∈ a :: t₁ := h.symm.subset (List.mem_cons_self b t₂)
      rcases List.mem_cons.mp hbmem with hba | hbt
      · exact hba.symm
      · have hamem : a ∈ b :: t₂ := h.subset (List.mem_cons_self a t₁)
        rcases List.mem_cons.mp hamem with hab | hat
        · exact hab
        · have h1 : addrLe a b := ha1 b hbt
          have h2 : addrLe b a := hb1 a hat
          have haddr : a.Address = b.Address := strLe_antisymm h1 h2
          have : a.Address ∈ t₁.map ResourceChange.Address := by
            rw [haddr]
            exact List.mem_map_of_mem _ hbt
          exact absurd this (List.nodup_cons.mp nd).1
    subst hab
    have ht : List.Perm t₁ t₂ := h.cons_inv
    rw [ih ht hs₁ hs₂ (List.nodup_cons.mp nd).2]

lemma sortByAddress_perm_eq {l₁ l₂ : List ResourceChange}
    (h : List.Perm l₁ l₂) (nd : (l₁.map ResourceChange.Address).Nodup) :
    sortByAddress l₁ = sortByAddress l₂ := by
  refine eq_of_perm_of_sorted_addr
    (((sortByAddress_perm l₁).trans h).trans (sortByAddress_perm l₂).symm)
    (sortByAddress_sorted l₁) (sortByAddress_sorted l₂) ?_
  have hperm : List.Perm ((sortByAddress l₁).map ResourceChange.Address)
      (l₁.map ResourceChange.Address) := (sortByAddress_perm l₁).map _
  exact hperm.nodup_iff.mpr nd

/-- Splitting a list into the blocks of a nodup key cover recovers the list
up to permutation. -/
lemma flatMap_filter_key_perm {α : Type} (key : α → String) :
    ∀ (keys : List String), keys.Nodup → ∀ (l : List α),
    (∀ x ∈ l, key x ∈ keys) →
    List.Perm (keys.flatMap (fun f => l.filter (fun x => key x = f))) l := by
  intro keys
  induction keys with
  | nil =>
    intro _ l hcov
    cases l with
    | nil => simp
    | cons x t => exact absurd (hcov x (List.mem_cons_self x t)) (by simp)
  | cons f fs ih =>
    intro hnd l hcov
    rw [List.flatMap_cons]
    have hfs : ∀ f2 ∈ fs,
        (l.filter (fun x => ¬ key x = f)).filter (fun x => key x = f2)
          = l.filter (fun x => key x = f2) := by
      intro f2 hf2
      rw [List.filter_filter]
      refine List.filter_congr ?_
      intro x _
      by_cases hx : key x = f2
      · have hne : ¬ key x = f := by
          rw [hx]
          intro hcontr
          rw [hcontr] at hf2
          exact (List.nodup_cons.mp hnd).1 hf2
        have hne2 : ¬ f2 = f := fun hcontr =>
          (List.nodup_cons.mp hnd).1 (hcontr ▸ hf2)
        simp [hx, hne, hne2]
      · simp [hx]
    have hmap : fs.flatMap (fun f2 => l.filter (fun x => key x = f2))
        = fs.flatMap (fun f2 =>
            (l.filter (fun x => ¬ key x = f)).filter (fun x => key x = f2)) := by
      unfold List.flatMap
      congr 1
      exact (List.map_congr_left (fun f2 hf2 => (hfs f2 hf2).symm))
    rw [hmap]
    have hrec := ih (List.nodup_cons.mp hnd).2 (l.filter (fun x => ¬ key x = f))
      (by
        intro x hx
        have hmem := List.mem_of_mem_filter hx
        have hprop := List.of_mem_filter hx
        have := hcov x hmem
        rcases List.mem_cons.mp this with h1 | h2
        · exact absurd h1 (by simpa using hprop)
        · exact h2)
    refine List.Perm.trans (List.Perm.append_left _ hrec) ?_
    have heq : List.filter (fun x => decide ¬(key x = f)) l
        = List.filter (fun x => ! decide (key x = f)) l := by
      refine List.filter_congr ?_
      intro x _
      exact decide_not
    rw [heq]
    exact List.filter_append_perm _ l

lemma flattenForest_append (a b : List TreeNode) :
    flattenForest (a ++ b) = flattenForest a ++ flattenForest b := by
  induction a with
  | nil => rfl
  | cons n ns ih =>
    rw [List.cons_append]
    rw [flattenForest, flattenForest, ih, List.append_assoc]

lemma flattenForest_flatMap {β : Type} (keys : List β) (g : β → List TreeNode) :
    flattenForest (keys.flatMap g) = keys.flatMap (fun k => flattenForest (g k)) := by
  induction keys with
  | nil => rfl
  | cons k ks ih =>
    rw [List.flatMap_cons, List.flatMap_cons, flattenForest_append, ih]

lemma flattenForest_map_leaf (ms : List ResourceChange) (lvl : Nat) :
    flattenForest (ms.map (fun r => leafNode r lvl)) = ms := by
  induction ms with
  | nil => rfl
  | cons r rs ih =>
    rw [List.map_cons, flattenForest, leafNode, flattenNode, flattenForest]
    rw [ih]
    rfl

lemma filter_nonnoop_eq_self {l : List ResourceChange}
    (h : ∀ r ∈ l, r.Action ≠ ChangeAction.noop) :
    l.filter (fun r => r.Action ≠ ChangeAction.noop) = l :=
  List.filter_eq_self.mpr (fun a ha => by simpa using h a ha)

lemma filter_not_append_perm {α : Type} (p : α → Prop) [DecidablePred p]
    (l : List α) :
    List.Perm (l.filter (fun x => p x) ++ l.filter (fun x => ¬ p x)) l := by
  have heq : List.filter (fun x => decide ¬(p x)) l
      = List.filter (fun x => ! decide (p x)) l := by
    refine List.filter_congr ?_
    intro x _
    exact decide_not
  show List.Perm (l.filter (fun x => decide (p x)) ++ l.filter (fun x => decide ¬(p x))) l
  rw [heq]
  exact List.filter_append_perm _ l

lemma rootRelocated_map_snd (ms : List ResourceChange) :
    (rootRelocated ms).map Prod.snd
      = (rootUngrouped0 ms).filter (fun r =>
          r.Action = ChangeAction.delete ∧ findReplacementFile r ms ≠ "") := by
  unfold rootRelocated
  induction rootUngrouped0 ms with
  | nil => rfl
  | cons r rest ih =>
    rw [List.filterMap_cons, List.filter_cons]
    by_cases hdel : r.Action = ChangeAction.delete
    · by_cases hf : findReplacementFile r ms ≠ ""
      · rw [if_pos hdel]
        rw [if_pos hf]
        rw [if_pos (by simp [hdel, hf])]
        rw [List.map_cons, ih]
      · rw [if_pos hdel, if_neg hf]
        rw [if_neg (by simp [hdel]; simpa using hf)]
        exact ih
    · rw [if_neg hdel, if_neg (by simp [hdel])]
      exact ih

lemma rootUngrouped_eq_filter (ms : List ResourceChange) :
    rootUngrouped ms = (rootUngrouped0 ms).filter (fun r =>
      ¬ (r.Action = ChangeAction.delete ∧ findReplacementFile r ms ≠ "")) := rfl

lemma rootSplit_perm (ms : List ResourceChange) :
    List.Perm ((rootRelocated ms).map Prod.snd ++ rootUngrouped ms)
      (rootUngrouped0 ms) := by
  rw [rootRelocated_map_snd, rootUngrouped_eq_filter]
  exact filter_not_append_perm _ _

lemma located_ungrouped0_perm (ms : List ResourceChange) :
    List.Perm (rootLocated ms ++ rootUngrouped0 ms) ms := by
  unfold rootLocated rootUngrouped0
  have h := filter_not_append_perm
    (fun r => getResourceFileName r = "unknown.tf") ms
  refine List.Perm.trans (List.perm_append_comm.trans ?_) h
  rfl

lemma findReplacementFile_sound (del : ResourceChange) :
    ∀ (all : List ResourceChange), findReplacementFile del all ≠ "" →
    ∃ r ∈ all, r.Action = ChangeAction.create ∧ r.«Type» = del.«Type» ∧
      indexMatches r.Index del.Index = true ∧
      getResourceFileName r = findReplacementFile del all ∧
      getResourceFileName r ≠ "unknown.tf" := by
  intro all
  induction all with
  | nil => intro h; exact absurd rfl h
  | cons r rest ih =>
    intro h
    rw [findReplacementFile] at h ⊢
    by_cases hc : r.Action = ChangeAction.create ∧ r.«Type» = del.«Type» ∧
        indexMatches r.Index del.Index = true ∧
        getResourceFileName r ≠ "unknown.tf"
    · refine ⟨r, List.mem_cons_self .., hc.1, hc.2.1, hc.2.2.1, ?_, hc.2.2.2⟩
      rw [if_pos hc]
    · rw [if_neg hc] at h ⊢
      obtain ⟨r2, hr2, hprop⟩ := ih h
      exact ⟨r2, List.mem_cons_of_mem _ hr2, hprop⟩

lemma mem_rootFileNames {ms : List ResourceChange} {x : ResourceChange}
    (hx : x ∈ rootLocated ms) :
    getResourceFileName x ∈ rootFileNames ms := by
  unfold rootFileNames
  rw [(sortStrings_perm _).mem_iff, List.mem_dedup]
  exact List.mem_map_of_mem _ hx

lemma rootFileNames_nodup (ms : List ResourceChange) :
    (rootFileNames ms).Nodup := by
  unfold rootFileNames
  exact (sortStrings_perm _).nodup_iff.mpr (List.nodup_dedup _)

lemma mem_of_mem_rootFileNames {ms : List ResourceChange} {f : String}
    (hf : f ∈ rootFileNames ms) :
    ∃ x ∈ rootLocated ms, getResourceFileName x = f := by
  unfold rootFileNames at hf
  rw [(sortStrings_perm _).mem_iff, List.mem_dedup] at hf
  obtain ⟨x, hx, rfl⟩ := List.mem_map.mp hf
  exact ⟨x, hx, rfl⟩

lemma rootRelocated_mem {ms : List ResourceChange} {p : String × ResourceChange}
    (hp : p ∈ rootRelocated ms) :
    p.2 ∈ rootUngrouped0 ms ∧ p.2.Action = ChangeAction.delete ∧
      p.1 = findReplacementFile p.2 ms ∧ findReplacementFile p.2 ms ≠ "" := by
  unfold rootRelocated at hp
  obtain ⟨x, hx, hq⟩ := List.mem_filterMap.mp hp
  by_cases hdel : x.Action = ChangeAction.delete
  · rw [if_pos hdel] at hq
    by_cases hf : findReplacementFile x ms ≠ ""
    · rw [if_pos hf] at hq
      have hpx : p = (findReplacementFile x ms, x) :=
        (Option.some_injective _ hq).symm
      subst hpx
      exact ⟨hx, hdel, rfl, hf⟩
    · rw [if_neg hf] at hq
      exact absurd hq (by simp)
  · rw [if_neg hdel] at hq
    exact absurd hq (by simp)

lemma rootRelocated_fst_mem_fileNames {ms : List ResourceChange}
    {p : String × ResourceChange} (hp : p ∈ rootRelocated ms) :
    p.1 ∈ rootFileNames ms := by
  obtain ⟨_, _, hfst, hne⟩ := rootRelocated_mem hp
  obtain ⟨r, hr, _, _, _, hfile, hunknown⟩ := findReplacementFile_sound p.2 ms hne
  have hloc : r ∈ rootLocated ms := by
    unfold rootLocated
    exact List.mem_filter.mpr ⟨hr, by simpa using hunknown⟩
  have := mem_rootFileNames hloc
  rw [hfile, ← hfst] at this
  exact this

lemma flatMap_append_perm {α β : Type} (keys : List α)
    (A B : α → List β) :
    List.Perm (keys.flatMap (fun f => A f ++ B f))
      (keys.flatMap A ++ keys.flatMap B) := by
  induction keys with
  | nil => simp
  | cons f fs ih =>
    rw [List.flatMap_cons, List.flatMap_cons, List.flatMap_cons]
    refine List.Perm.trans (List.Perm.append_left (A f ++ B f) ih) ?_
    rw [List.append_assoc, List.append_assoc]
    refine List.Perm.append_left (A f) ?_
    rw [← List.append_assoc, ← List.append_assoc]
    exact List.Perm.append_right _ List.perm_append_comm

lemma map_flatMap_comm {α β γ : Type} (keys : List α) (g : β → γ)
    (F : α → List β) :
    (keys.flatMap F).map g = keys.flatMap (fun k => (F k).map g) := by
  induction keys with
  | nil => rfl
  | cons k ks ih =>
    rw [List.flatMap_cons, List.flatMap_cons, List.map_append, ih]

lemma filter_flatMap_comm {α β : Type} (keys : List α) (p : β → Bool)
    (F : α → List β) :
    (keys.flatMap F).filter p = keys.flatMap (fun k => (F k).filter p) := by
  induction keys with
  | nil => rfl
  | cons k ks ih =>
    rw [List.flatMap_cons, List.flatMap_cons, List.filter_append, ih]

/-- The filtered depth-first leaves of the root partition's nodes are a
permutation of the partition members. -/
lemma root_block_leaves_perm (ms : List ResourceChange)
    (hnn : ∀ r ∈ ms, r.Action ≠ ChangeAction.noop) :
    List.Perm ((flattenForest (buildModuleNodes "root" ms)).filter
      (fun r => r.Action ≠ ChangeAction.noop)) ms := by
  have hlocsub : ∀ r ∈ rootLocated ms, r ∈ ms := fun r hr =>
    List.mem_of_mem_filter hr
  have hu0sub : ∀ r ∈ rootUngrouped0 ms, r ∈ ms := fun r hr =>
    List.mem_of_mem_filter hr
  have hrelsub : ∀ r ∈ (rootRelocated ms).map Prod.snd, r ∈ ms := by
    intro r hr
    rw [rootRelocated_map_snd] at hr
    exact hu0sub r (List.mem_of_mem_filter hr)
  have hgrpsub : ∀ f, ∀ r ∈ rootFileGroup ms f, r ∈ ms := by
    intro f r hr
    unfold rootFileGroup at hr
    rcases List.mem_append.mp hr with h1 | h2
    · exact hlocsub r (List.mem_of_mem_filter h1)
    · obtain ⟨p, hp, rfl⟩ := List.mem_map.mp h2
      exact hrelsub _ (List.mem_map_of_mem _ (List.mem_of_mem_filter hp))
  have hfinal : List.Perm
      ((rootLocated ms ++ (rootRelocated ms).map Prod.snd)
        ++ rootUngrouped ms) ms := by
    rw [List.append_assoc]
    refine List.Perm.trans (List.Perm.append_left _ (rootSplit_perm ms)) ?_
    exact located_ungrouped0_perm ms
  unfold buildModuleNodes
  rw [if_pos rfl]
  rw [flattenForest_append, List.filter_append]
  have hung : (flattenForest ((rootUngrouped ms).map (fun r => leafNode r 0))).filter
      (fun r => r.Action ≠ ChangeAction.noop) = rootUngrouped ms := by
    rw [flattenForest_map_leaf]
    refine filter_nonnoop_eq_self ?_
    intro r hr
    exact hnn r (hu0sub r (List.mem_of_mem_filter hr))
  rw [hung]
  split_ifs with hcond
  · -- single file group, flattened
    rw [flattenForest_map_leaf]
    rw [filter_nonnoop_eq_self (fun r hr => hnn r (hgrpsub _ r hr))]
    obtain ⟨f0, hf0⟩ : ∃ f0, rootFileNames ms = [f0] := by
      obtain ⟨hlen, _⟩ := hcond
      cases hns : rootFileNames ms with
      | nil => rw [hns] at hlen; simp at hlen
      | cons a t =>
        rw [hns] at hlen
        simp at hlen
        exact ⟨a, by rw [hlen]⟩
    rw [hf0]
    have hloc0 : (rootLocated ms).filter
        (fun r => getResourceFileName r = [f0].headD "") = rootLocated ms := by
      refine List.filter_eq_self.mpr ?_
      intro a ha
      have := mem_rootFileNames ha
      rw [hf0] at this
      simp at this
      simp [this]
    have hrel0 : (rootRelocated ms).filter (fun p => p.1 = [f0].headD "")
        = rootRelocated ms := by
      refine List.filter_eq_self.mpr ?_
      intro a ha
      have := rootRelocated_fst_mem_fileNames ha
      rw [hf0] at this
      simp at this
      simp [this]
    unfold rootFileGroup
    rw [hloc0, hrel0]
    exact hfinal
  · -- one header per file group
    rw [flattenForest_flatMap, filter_flatMap_comm]
    have hblocks : ∀ f ∈ rootFileNames ms,
        (flattenForest (match rootFileGroup ms f with
          | [] => []
          | firstRes :: _ =>
            [TreeNode.mk (fileGroupRecord f firstRes) false
              ((rootFileGroup ms f).map (fun r => leafNode r 1)) 0])).filter
          (fun r => r.Action ≠ ChangeAction.noop) = rootFileGroup ms f := by
      intro f hf
      obtain ⟨x, hx, hxf⟩ := mem_of_mem_rootFileNames hf
      have hne : rootFileGroup ms f ≠ [] := by
        intro hcontr
        have hxin : x ∈ rootFileGroup ms f := by
          unfold rootFileGroup
          refine List.mem_append.mpr (Or.inl ?_)
          exact List.mem_filter.mpr ⟨hx, by simpa using hxf⟩
        rw [hcontr] at hxin
        exact List.not_mem_nil x hxin
      obtain ⟨fr, rest, hcons⟩ := List.exists_cons_of_ne_nil hne
      rw [hcons]
      rw [flattenForest, flattenNode, flattenForest]
      rw [List.append_nil]
      rw [List.filter_cons]
      rw [if_neg (by simp [fileGroupRecord])]
      rw [flattenForest_map_leaf, ← hcons]
      exact filter_nonnoop_eq_self (fun r hr => hnn r (hgrpsub f r hr))
    have hflat : (rootFileNames ms).flatMap (fun f =>
        (flattenForest (match rootFileGroup ms f with
          | [] => []
          | firstRes :: _ =>
            [TreeNode.mk (fileGroupRecord f firstRes) false
              ((rootFileGroup ms f).map (fun r => leafNode r 1)) 0])).filter
          (fun r => r.Action ≠ ChangeAction.noop))
        = (rootFileNames ms).flatMap (rootFileGroup ms) := by
      unfold List.flatMap
      congr 1
      exact List.map_congr_left hblocks
    rw [hflat]
    have hsplit : List.Perm ((rootFileNames ms).flatMap (rootFileGroup ms))
        (rootLocated ms ++ (rootRelocated ms).map Prod.snd) := by
      have h1 : (rootFileNames ms).flatMap (rootFileGroup ms)
          = (rootFileNames ms).flatMap (fun f =>
              (rootLocated ms).filter (fun r => getResourceFileName r = f)
                ++ ((rootRelocated ms).filter (fun p => p.1 = f)).map Prod.snd) := rfl
      rw [h1]
      refine List.Perm.trans (flatMap_append_perm _ _ _) ?_
      refine List.Perm.append ?_ ?_
      · exact flatMap_filter_key_perm getResourceFileName (rootFileNames ms)
          (rootFileNames_nodup ms) (rootLocated ms)
          (fun x hx => mem_rootFileNames hx)
      · rw [← map_flatMap_comm]
        refine List.Perm.map Prod.snd ?_
        exact flatMap_filter_key_perm Prod.fst (rootFileNames ms)
          (rootFileNames_nodup ms) (rootRelocated ms)
          (fun p hp => rootRelocated_fst_mem_fileNames hp)
    refine List.Perm.trans (List.Perm.append_right _ hsplit) ?_
    exact hfinal

lemma filterMap_pair_filter_snd_sublist {β : Type}
    (q : ResourceChange → Option (β × ResourceChange))
    (hq : ∀ x p, q x = some p → p.2 = x) (pr : β × ResourceChange → Bool) :
    ∀ (l : List ResourceChange),
      (((l.filterMap q).filter pr).map Prod.snd).Sublist l := by
  intro l
  induction l with
  | nil => simp
  | cons x t ih =>
    rw [List.filterMap_cons]
    cases hqx : q x with
    | none => exact ih.cons x
    | some p =>
      rw [List.filter_cons]
      by_cases hpr : pr p
      · rw [if_pos hpr, List.map_cons, hq x p hqx]
        exact ih.cons₂ x
      · rw [if_neg hpr]
        exact ih.cons x

lemma relocated_filter_snd_sublist (ms : List ResourceChange) (f : String) :
    (((rootRelocated ms).filter (fun p => p.1 = f)).map Prod.snd).Sublist
      (rootUngrouped0 ms) := by
  unfold rootRelocated
  refine filterMap_pair_filter_snd_sublist _ ?_ _ _
  intro x p hp
  by_cases hdel : x.Action = ChangeAction.delete
  · rw [if_pos hdel] at hp
    by_cases hf : findReplacementFile x ms ≠ ""
    · rw [if_pos hf] at hp
      cases hp
      rfl
    · rw [if_neg hf] at hp
      exact absurd hp (by simp)
  · rw [if_neg hdel] at hp
    exact absurd hp (by simp)

/-- Shape of every node emitted for one (address-sorted) module partition:
level 0, childless-level-1 children, no-op synthetic headers, address-sorted
module children, and for file groups the located-sorted-then-relocated
decomposition. -/
lemma buildModuleNodes_shape (nm : String) (ms : List ResourceChange)
    (hsorted : ms.Sorted addrLe) :
    ∀ n ∈ buildModuleNodes nm ms,
      n.Level = 0 ∧
      (∀ c ∈ n.Children, c.Level = 1 ∧ c.Children = []) ∧
      (n.Children ≠ [] → n.Resource.Action = ChangeAction.noop ∧
        (n.Resource.«Type» = "module" ∨ n.Resource.«Type» = "file")) ∧
      (n.Children ≠ [] → n.Resource.«Type» = "module" →
        (n.Children.map TreeNode.Resource).Sorted addrLe) ∧
      (n.Children ≠ [] → n.Resource.«Type» = "file" →
        ∃ l₁ l₂, n.Children.map TreeNode.Resource = l₁ ++ l₂ ∧
          l₁.Sorted addrLe ∧
          (∀ r ∈ l₁, getResourceFileName r = n.Resource.Address) ∧
          (∀ r ∈ l₂, r.Action = ChangeAction.delete ∧
            getResourceFileName r = "unknown.tf") ∧
          l₂.Sorted addrLe) := by
  have hleaf : ∀ (r : ResourceChange) (lvl : Nat), lvl = 0 →
      ∀ n, n = leafNode r lvl →
      n.Level = 0 ∧ (∀ c ∈ n.Children, c.Level = 1 ∧ c.Children = []) ∧
      (n.Children ≠ [] → n.Resource.Action = ChangeAction.noop ∧
        (n.Resource.«Type» = "module" ∨ n.Resource.«Type» = "file")) ∧
      (n.Children ≠ [] → n.Resource.«Type» = "module" →
        (n.Children.map TreeNode.Resource).Sorted addrLe) ∧
      (n.Children ≠ [] → n.Resource.«Type» = "file" →
        ∃ l₁ l₂, n.Children.map TreeNode.Resource = l₁ ++ l₂ ∧
          l₁.Sorted addrLe ∧
          (∀ r2 ∈ l₁, getResourceFileName r2 = n.Resource.Address) ∧
          (∀ r2 ∈ l₂, r2.Action = ChangeAction.delete ∧
            getResourceFileName r2 = "unknown.tf") ∧
          l₂.Sorted addrLe) := by
    intro r lvl hlvl n hn
    subst hn hlvl
    refine ⟨rfl, ?_, ?_, ?_, ?_⟩
    · intro c hc
      exact absurd hc (List.not_mem_nil c)
    · intro h; exact absurd rfl h
    · intro h; exact absurd rfl h
    · intro h; exact absurd rfl h
  unfold buildModuleNodes
  by_cases hroot : nm = "root"
  · rw [if_pos hroot]
    intro n hn
    rcases List.mem_append.mp hn with hbr | hug
    · by_cases hcond : (rootFileNames ms).length = 1 ∧ (rootUngrouped ms).length = 0
      · rw [if_pos hcond] at hbr
        obtain ⟨r, _, rfl⟩ := List.mem_map.mp hbr
        exact hleaf r 0 rfl _ rfl
      · rw [if_neg hcond] at hbr
        obtain ⟨f, hf, hmem⟩ := List.mem_flatMap.mp hbr
        cases hg : rootFileGroup ms f with
        | nil => rw [hg] at hmem; exact absurd hmem (List.not_mem_nil n)
        | cons fr rest =>
          rw [hg] at hmem
          rcases List.mem_singleton.mp hmem with rfl
          refine ⟨rfl, ?_, ?_, ?_, ?_⟩
          · intro c hc
            obtain ⟨r, _, rfl⟩ := List.mem_map.mp hc
            exact ⟨rfl, rfl⟩
          · intro _
            exact ⟨rfl, Or.inr rfl⟩
          · intro _ htype
            have h2 : ("file" : String) = "module" := htype
            exact absurd h2 (by decide)
          · intro _ _
            refine ⟨(rootLocated ms).filter (fun r => getResourceFileName r = f),
              ((rootRelocated ms).filter (fun p => p.1 = f)).map Prod.snd,
              ?_, ?_, ?_, ?_, ?_⟩
            · show ((fr :: rest).map (fun r => leafNode r 1)).map
                TreeNode.Resource =
                  (rootLocated ms).filter (fun r => getResourceFileName r = f)
                    ++ ((rootRelocated ms).filter
                      (fun p => p.1 = f)).map Prod.snd
              rw [List.map_map]
              have hcomp : (TreeNode.Resource ∘ fun r => leafNode r 1) = id := by
                funext r; rfl
              rw [hcomp, List.map_id, ← hg]
              rfl
            · refine List.Pairwise.filter _ ?_
              exact List.Pairwise.filter _ hsorted
            · intro r hr
              have := List.of_mem_filter hr
              simpa using this
            · intro r hr
              obtain ⟨p, hp, rfl⟩ := List.mem_map.mp hr
              have hpmem := List.mem_of_mem_filter hp
              obtain ⟨hu0, hdel, _, _⟩ := rootRelocated_mem hpmem
              refine ⟨hdel, ?_⟩
              have := List.of_mem_filter hu0
              simpa using this
            · have hsub : ((((rootRelocated ms).filter
                  (fun p => p.1 = f)).map Prod.snd)).Sublist ms := by
                refine (relocated_filter_snd_sublist ms f).trans ?_
                unfold rootUngrouped0
                exact List.filter_sublist ms
              exact List.Pairwise.sublist hsub hsorted
    · obtain ⟨r, _, rfl⟩ := List.mem_map.mp hug
      exact hleaf r 0 rfl _ rfl
  · rw [if_neg hroot]
    cases ms with
    | nil => intro n hn; exact absurd hn (List.not_mem_nil n)
    | cons firstRes rest =>
      intro n hn
      rcases List.mem_singleton.mp hn with rfl
      refine ⟨rfl, ?_, ?_, ?_, ?_⟩
      · intro c hc
        obtain ⟨r, _, rfl⟩ := List.mem_map.mp hc
        exact ⟨rfl, rfl⟩
      · intro _
        exact ⟨rfl, Or.inl rfl⟩
      · intro _ _
        show List.Sorted addrLe
          (((firstRes :: rest).map (fun r => leafNode r 1)).map
            TreeNode.Resource)
        rw [List.map_map]
        have hcomp : (TreeNode.Resource ∘ fun r => leafNode r 1) = id := by
          funext r; rfl
        rw [hcomp, List.map_id]
        exact hsorted
      · intro _ htype
        have h2 : ("module" : String) = "file" := htype
        exact absurd h2 (by decide)

/-- A non-root module partition: the filtered depth-first leaves recover the
partition exactly (the synthetic no-op header is dropped by the filter). -/
lemma module_block_leaves_eq (nm : String) (ms : List ResourceChange)
    (hroot : nm ≠ "root") (hnn : ∀ r ∈ ms, r.Action ≠ ChangeAction.noop) :
    (flattenForest (buildModuleNodes nm ms)).filter
      (fun r => r.Action ≠ ChangeAction.noop) = ms := by
  unfold buildModuleNodes
  rw [if_neg hroot]
  cases ms with
  | nil => rfl
  | cons firstRes rest =>
    show (flattenForest [TreeNode.mk (moduleGroupRecord nm firstRes) false
      ((firstRes :: rest).map (fun r => leafNode r 1)) 0]).filter
        (fun r => r.Action ≠ ChangeAction.noop) = firstRes :: rest
    rw [flattenForest, flattenNode, flattenForest, List.append_nil,
      flattenForest_map_leaf, List.filter_cons]
    rw [if_neg (by simp [moduleGroupRecord])]
    exact filter_nonnoop_eq_self hnn

lemma block_leaves_perm (nm : String) (ms : List ResourceChange)
    (hnn : ∀ r ∈ ms, r.Action ≠ ChangeAction.noop) :
    List.Perm ((flattenForest (buildModuleNodes nm ms)).filter
      (fun r => r.Action ≠ ChangeAction.noop)) ms := by
  by_cases hroot : nm = "root"
  · rw [hroot]
    exact root_block_leaves_perm ms hnn
  · rw [module_block_leaves_eq nm ms hroot hnn]

lemma flatMap_perm_congr {α β : Type} (keys : List α) (F G : α → List β)
    (h : ∀ k ∈ keys, List.Perm (F k) (G k)) :
    List.Perm (keys.flatMap F) (keys.flatMap G) := by
  induction keys with
  | nil => simp
  | cons k ks ih =>
    rw [List.flatMap_cons, List.flatMap_cons]
    exact List.Perm.append (h k (List.mem_cons_self k ks))
      (ih (fun k2 hk2 => h k2 (List.mem_cons.mpr (Or.inr hk2))))

lemma flatMap_blocks_perm (changing : List ResourceChange)
    (hnnch : ∀ r ∈ changing, r.Action ≠ ChangeAction.noop) :
    List.Perm ((flattenForest
        ((sortStrings (changing.map moduleKey).dedup).flatMap
          (buildModuleBlock changing))).filter
        (fun r => r.Action ≠ ChangeAction.noop)) changing := by
  rw [flattenForest_flatMap, filter_flatMap_comm]
  have hstep : ∀ nm ∈ sortStrings (changing.map moduleKey).dedup,
      List.Perm ((flattenForest (buildModuleBlock changing nm)).filter
        (fun r => r.Action ≠ ChangeAction.noop))
        (changing.filter (fun r => moduleKey r = nm)) := by
    intro nm _
    unfold buildModuleBlock
    have hnn2 : ∀ r ∈ sortByAddress
        (changing.filter (fun r => moduleKey r = nm)),
        r.Action ≠ ChangeAction.noop := by
      intro r hr
      have hmem := (sortByAddress_perm _).mem_iff.mp hr
      exact hnnch r (List.mem_of_mem_filter hmem)
    exact (block_leaves_perm nm _ hnn2).trans (sortByAddress_perm _)
  refine List.Perm.trans (flatMap_perm_congr _ _ _ hstep) ?_
  refine flatMap_filter_key_perm moduleKey _ ?_ changing ?_
  · exact ((sortStrings_perm _).nodup_iff).mpr (List.nodup_dedup _)
  · intro x hx
    have hmem : moduleKey x ∈ (changing.map moduleKey).dedup :=
      List.mem_dedup.mpr (List.mem_map_of_mem _ hx)
    exact ((sortStrings_perm _).mem_iff).mpr hmem

/-- The changing (non-no-op) records of the input reappear exactly once each
as depth-first leaves of the tree. -/
lemma buildTreeNodes_leaves_perm (rs : List ResourceChange) :
    List.Perm ((flattenForest (buildTreeNodes rs)).filter
        (fun r => r.Action ≠ ChangeAction.noop))
      (rs.filter (fun r => r.Action ≠ ChangeAction.noop)) := by
  have h := flatMap_blocks_perm (rs.filter (fun r => r.Action ≠ ChangeAction.noop))
    (by intro r hr; have := List.of_mem_filter hr; simpa using this)
  exact h

lemma buildModuleBlock_perm_eq {c₁ c₂ : List ResourceChange}
    (hperm : List.Perm c₁ c₂)
    (hnd : (c₁.map ResourceChange.Address).Nodup) (nm : String) :
    buildModuleBlock c₁ nm = buildModuleBlock c₂ nm := by
  unfold buildModuleBlock
  congr 1
  refine sortByAddress_perm_eq (hperm.filter _) ?_
  have hsub : (c₁.filter (fun r => moduleKey r = nm)).Sublist c₁ :=
    List.filter_sublist c₁
  exact hnd.sublist (hsub.map ResourceChange.Address)

/-- `buildTreeNodes` is determined by the multiset of records when the
changing records carry distinct addresses: any input reordering yields the
identical tree. -/
lemma buildTreeNodes_perm_eq {rs₁ rs₂ : List ResourceChange}
    (hperm : List.Perm rs₁ rs₂)
    (hnd : ((rs₁.filter (fun r => r.Action ≠ ChangeAction.noop)).map
      ResourceChange.Address).Nodup) :
    buildTreeNodes rs₁ = buildTreeNodes rs₂ := by
  have hch : List.Perm (rs₁.filter (fun r => r.Action ≠ ChangeAction.noop))
      (rs₂.filter (fun r => r.Action ≠ ChangeAction.noop)) := hperm.filter _
  have hkeys : sortStrings
        ((rs₁.filter (fun r => r.Action ≠ ChangeAction.noop)).map
          moduleKey).dedup
      = sortStrings
        ((rs₂.filter (fun r => r.Action ≠ ChangeAction.noop)).map
          moduleKey).dedup :=
    sortStrings_perm_eq ((hch.map moduleKey).dedup)
  show (sortStrings
        ((rs₁.filter (fun r => r.Action ≠ ChangeAction.noop)).map
          moduleKey).dedup).flatMap
      (buildModuleBlock (rs₁.filter (fun r => r.Action ≠ ChangeAction.noop)))
    = (sortStrings
        ((rs₂.filter (fun r => r.Action ≠ ChangeAction.noop)).map
          moduleKey).dedup).flatMap
      (buildModuleBlock (rs₂.filter (fun r => r.Action ≠ ChangeAction.noop)))
  rw [← hkeys]
  unfold List.flatMap
  congr 1
  exact List.map_congr_left (fun nm _ => buildModuleBlock_perm_eq hch hnd nm)

/-- Shape of every top-level node of `buildTreeNodes`, inherited from the
per-partition shape lemma with the partition sorted by address. -/
lemma buildTreeNodes_shape (rs : List ResourceChange) :
    ∀ n ∈ buildTreeNodes rs,
      n.Level = 0 ∧
      (∀ c ∈ n.Children, c.Level = 1 ∧ c.Children = []) ∧
      (n.Children ≠ [] → n.Resource.Action = ChangeAction.noop ∧
        (n.Resource.«Type» = "module" ∨ n.Resource.«Type» = "file")) ∧
      (n.Children ≠ [] → n.Resource.«Type» = "module" →
        (n.Children.map TreeNode.Resource).Sorted addrLe) ∧
      (n.Children ≠ [] → n.Resource.«Type» = "file" →
        ∃ l₁ l₂, n.Children.map TreeNode.Resource = l₁ ++ l₂ ∧
          l₁.Sorted addrLe ∧
          (∀ r ∈ l₁, getResourceFileName r = n.Resource.Address) ∧
          (∀ r ∈ l₂, r.Action = ChangeAction.delete ∧
            getResourceFileName r = "unknown.tf") ∧
          l₂.Sorted addrLe) := by
  intro n hn
  have hn2 : n ∈ (sortStrings
      ((rs.filter (fun r => r.Action ≠ ChangeAction.noop)).map
        moduleKey).dedup).flatMap
      (buildModuleBlock (rs.filter (fun r => r.Action ≠ ChangeAction.noop))) :=
    hn
  obtain ⟨nm, _, hmem⟩ := List.mem_flatMap.mp hn2
  unfold buildModuleBlock at hmem
  exact buildModuleNodes_shape nm _ (sortByAddress_sorted _) n hmem

/-- C1: the depth-first flattening of `buildTreeNodes` contains exactly the
non-no-op input records, each exactly once; the tree is independent of the
input ordering when the changing records carry distinct addresses; synthetic
parents are no-op; a module group's children are sorted by address; a file
group's children are an address-sorted located block followed by an
address-sorted block of relocated deletes (the concatenation itself need not
be address-sorted, see the counterexample). -/
theorem C1_tree_builder (rs rs₂ : List ResourceChange)
    (hperm : List.Perm rs rs₂)
    (hnd : ((rs.filter (fun r => r.Action ≠ ChangeAction.noop)).map
      ResourceChange.Address).Nodup) :
    List.Perm ((flattenForest (buildTreeNodes rs)).filter
        (fun r => r.Action ≠ ChangeAction.noop))
      (rs.filter (fun r => r.Action ≠ ChangeAction.noop)) ∧
    buildTreeNodes rs = buildTreeNodes rs₂ ∧
    (∀ n ∈ buildTreeNodes rs, n.Children ≠ [] →
      n.Resource.Action = ChangeAction.noop ∧
      (n.Resource.«Type» = "module" →
        (n.Children.map TreeNode.Resource).Sorted addrLe) ∧
      (n.Resource.«Type» = "file" →
        ∃ l₁ l₂, n.Children.map TreeNode.Resource = l₁ ++ l₂ ∧
          l₁.Sorted addrLe ∧ l₂.Sorted addrLe ∧
          ∀ r ∈ l₂, r.Action = ChangeAction.delete)) := by
  refine ⟨buildTreeNodes_leaves_perm rs, buildTreeNodes_perm_eq hperm hnd, ?_⟩
  intro n hn hne
  obtain ⟨_, _, hpar, hmod, hfile⟩ := buildTreeNodes_shape rs n hn
  refine ⟨(hpar hne).1, fun hm => hmod hne hm, fun hf => ?_⟩
  obtain ⟨l₁, l₂, heq, hs₁, _, hdel, hs₂⟩ := hfile hne hf
  exact ⟨l₁, l₂, heq, hs₁, hs₂, fun r hr => (hdel r hr).1⟩

theorem C1_witness :
    List.Perm ((flattenForest (buildTreeNodes [exDeleteA, exCreateB])).filter
        (fun r => r.Action ≠ ChangeAction.noop))
      ([exDeleteA, exCreateB].filter (fun r => r.Action ≠ ChangeAction.noop)) ∧
    buildTreeNodes [exDeleteA, exCreateB]
      = buildTreeNodes [exCreateB, exDeleteA] ∧
    (∀ n ∈ buildTreeNodes [exDeleteA, exCreateB], n.Children ≠ [] →
      n.Resource.Action = ChangeAction.noop ∧
      (n.Resource.«Type» = "module" →
        (n.Children.map TreeNode.Resource).Sorted addrLe) ∧
      (n.Resource.«Type» = "file" →
        ∃ l₁ l₂, n.Children.map TreeNode.Resource = l₁ ++ l₂ ∧
          l₁.Sorted addrLe ∧ l₂.Sorted addrLe ∧
          ∀ r ∈ l₂, r.Action = ChangeAction.delete)) :=
  C1_tree_builder [exDeleteA, exCreateB] [exCreateB, exDeleteA]
    (List.Perm.swap exCreateB exDeleteA []) (by decide)

/-- C1 counterexample to the claimed overall address-sortedness of group
children: the delete at address "a" is relocated into file group f.tf after
the located create at address "b", so the children read b, a although
a < b lexicographically. -/
theorem C1_counterexample :
    (buildTreeNodes [exDeleteA, exCreateB, exCreateC]).map
        (fun n => n.Children.map (fun c => c.Resource.Address))
      = [["b", "a"], ["c"]] ∧
    ¬ strLe "b" "a" :=
  ⟨by decide, by decide⟩

lemma setExpanded_Children (n : TreeNode) (b : Bool) :
    (n.setExpanded b).Children = n.Children := by
  cases n
  rfl

lemma setExpanded_Expanded (n : TreeNode) (b : Bool) :
    (n.setExpanded b).Expanded = b := by
  cases n
  rfl

lemma flattenForest_childless (cs : List TreeNode)
    (h : ∀ c ∈ cs, c.Children = []) :
    flattenForest cs = cs.map TreeNode.Resource := by
  induction cs with
  | nil => rfl
  | cons c t ih =>
    rw [flattenForest, List.map_cons,
      ih (fun x hx => h x (List.mem_cons.mpr (Or.inr hx)))]
    have hc : c.Children = [] := h c (List.mem_cons_self c t)
    cases c with
    | mk r e kids l =>
      have hk : kids = [] := hc
      subst hk
      rfl

lemma dfsForest_childless (cs : List TreeNode)
    (h : ∀ c ∈ cs, c.Children = []) : dfsForest cs = cs := by
  induction cs with
  | nil => rfl
  | cons c t ih =>
    rw [dfsForest, ih (fun x hx => h x (List.mem_cons.mpr (Or.inr hx)))]
    have hc : c.Children = [] := h c (List.mem_cons_self c t)
    cases c with
    | mk r e kids l =>
      have hk : kids = [] := hc
      subst hk
      rfl

lemma flatMap_vis_eq_dfs (ns : List TreeNode)
    (hexp : ∀ n ∈ ns, n.Expanded = true)
    (hchild : ∀ n ∈ ns, ∀ c ∈ n.Children, c.Children = []) :
    ns.flatMap (fun node =>
      node :: (if node.Expanded ∧ node.Children.length > 0
        then node.Children else [])) = dfsForest ns := by
  induction ns with
  | nil => rfl
  | cons n t ih =>
    rw [List.flatMap_cons, dfsForest,
      ih (fun x hx => hexp x (List.mem_cons.mpr (Or.inr hx)))
        (fun x hx => hchild x (List.mem_cons.mpr (Or.inr hx)))]
    congr 1
    have hne : n.Expanded = true := hexp n (List.mem_cons_self n t)
    have hch := hchild n (List.mem_cons_self n t)
    have hnode : dfsNode n = n :: n.Children := by
      cases n with
      | mk r e kids l =>
        rw [dfsNode, dfsForest_childless kids hch]
        rfl
    rw [hnode]
    by_cases hlen : n.Children.length > 0
    · rw [if_pos ⟨hne, hlen⟩]
    · rw [if_neg (fun hcontr => hlen hcontr.2)]
      have : n.Children = [] := by
        cases hcn : n.Children with
        | nil => rfl
        | cons a b => rw [hcn] at hlen; exact absurd (by simp) hlen
      rw [this]

lemma flatMap_childrenRes_sublist (ns : List TreeNode)
    (h : ∀ n ∈ ns, ∀ c ∈ n.Children, c.Children = []) :
    (ns.flatMap (fun n => n.Children.map TreeNode.Resource)).Sublist
      (flattenForest ns) := by
  induction ns with
  | nil => simp [flattenForest]
  | cons n t ih =>
    rw [List.flatMap_cons, flattenForest]
    have hch := h n (List.mem_cons_self n t)
    have hflat : flattenNode n
        = n.Resource :: n.Children.map TreeNode.Resource := by
      cases n with
      | mk r e kids l =>
        rw [flattenNode, flattenForest_childless kids hch]
        rfl
    rw [hflat]
    refine List.Sublist.append ?_
      (ih (fun x hx => h x (List.mem_cons.mpr (Or.inr hx))))
    exact (List.Sublist.refl _).cons _

lemma rootFileGroup_subset (ms : List ResourceChange) (f : String) :
    ∀ r ∈ rootFileGroup ms f, r ∈ ms := by
  intro r hr
  unfold rootFileGroup at hr
  rcases List.mem_append.mp hr with h1 | h2
  · exact List.mem_of_mem_filter (List.mem_of_mem_filter h1)
  · obtain ⟨p, hp, rfl⟩ := List.mem_map.mp h2
    obtain ⟨hu0, _, _, _⟩ := rootRelocated_mem (List.mem_of_mem_filter hp)
    exact List.mem_of_mem_filter hu0

lemma buildModuleNodes_children_mem (nm : String) (ms : List ResourceChange) :
    ∀ n ∈ buildModuleNodes nm ms, ∀ c ∈ n.Children, c.Resource ∈ ms := by
  unfold buildModuleNodes
  by_cases hroot : nm = "root"
  · rw [if_pos hroot]
    intro n hn c hc
    rcases List.mem_append.mp hn with hbr | hug
    · by_cases hcond : (rootFileNames ms).length = 1 ∧ (rootUngrouped ms).length = 0
      · rw [if_pos hcond] at hbr
        obtain ⟨r, _, rfl⟩ := List.mem_map.mp hbr
        exact absurd hc (List.not_mem_nil c)
      · rw [if_neg hcond] at hbr
        obtain ⟨f, hf, hmem⟩ := List.mem_flatMap.mp hbr
        cases hg : rootFileGroup ms f with
        | nil => rw [hg] at hmem; exact absurd hmem (List.not_mem_nil n)
        | cons fr rest =>
          rw [hg] at hmem
          rcases List.mem_singleton.mp hmem with rfl
          obtain ⟨r, hr, rfl⟩ := List.mem_map.mp hc
          have : r ∈ rootFileGroup ms f := by rw [hg]; exact hr
          exact rootFileGroup_subset ms f r this
    · obtain ⟨r, _, rfl⟩ := List.mem_map.mp hug
      exact absurd hc (List.not_mem_nil c)
  · rw [if_neg hroot]
    cases ms with
    | nil => intro n hn; exact absurd hn (List.not_mem_nil n)
    | cons firstRes rest =>
      intro n hn c hc
      rcases List.mem_singleton.mp hn with rfl
      obtain ⟨r, hr, rfl⟩ := List.mem_map.mp hc
      exact hr

lemma buildTreeNodes_children_nonnoop (rs : List ResourceChange) :
    ∀ n ∈ buildTreeNodes rs, ∀ c ∈ n.Children,
      c.Resource.Action ≠ ChangeAction.noop := by
  intro n hn c hc
  have hn2 : n ∈ (sortStrings
      ((rs.filter (fun r => r.Action ≠ ChangeAction.noop)).map
        moduleKey).dedup).flatMap
      (buildModuleBlock (rs.filter (fun r => r.Action ≠ ChangeAction.noop))) :=
    hn
  obtain ⟨nm, _, hmem⟩ := List.mem_flatMap.mp hn2
  unfold buildModuleBlock at hmem
  have hcm := buildModuleNodes_children_mem nm _ n hmem c hc
  have hcm2 := (sortByAddress_perm _).mem_iff.mp hcm
  have hcm3 := List.mem_of_mem_filter hcm2
  have := List.of_mem_filter hcm3
  simpa using this

/-- C10: every forest from `buildTreeNodes` is a two-level true forest:
top-level nodes sit at level 0, their children at level 1 with no children
of their own, nodes with children are synthetic no-op module or file
headers, no record (hence no node) appears under two parents when the
changing records carry distinct addresses, and on such a forest with every
top-level node expanded the one-level flattening of `getVisibleNodes`
enumerates exactly the depth-first nodes of every branch. -/
theorem C10_forest_invariants (rs : List ResourceChange)
    (hnd : ((rs.filter (fun r => r.Action ≠ ChangeAction.noop)).map
      ResourceChange.Address).Nodup) :
    (∀ n ∈ buildTreeNodes rs,
      n.Level = 0 ∧
      (∀ c ∈ n.Children, c.Level = 1 ∧ c.Children = []) ∧
      (n.Children ≠ [] → n.Resource.Action = ChangeAction.noop ∧
        (n.Resource.«Type» = "module" ∨ n.Resource.«Type» = "file"))) ∧
    (((buildTreeNodes rs).flatMap
        (fun n => n.Children.map TreeNode.Resource)).map
      ResourceChange.Address).Nodup ∧
    (∀ m : Model, m.nodes = (buildTreeNodes rs).map
        (fun n => n.setExpanded true) →
      m.getVisibleNodes = dfsForest m.nodes) := by
  have hshape := buildTreeNodes_shape rs
  refine ⟨?_, ?_, ?_⟩
  · intro n hn
    obtain ⟨h1, h2, h3, _, _⟩ := hshape n hn
    exact ⟨h1, h2, h3⟩
  · have hchildless : ∀ n ∈ buildTreeNodes rs, ∀ c ∈ n.Children,
        c.Children = [] :=
      fun n hn c hc => ((hshape n hn).2.1 c hc).2
    have hsubflat := flatMap_childrenRes_sublist (buildTreeNodes rs) hchildless
    have hCRnn : ∀ r ∈ (buildTreeNodes rs).flatMap
        (fun n => n.Children.map TreeNode.Resource),
        r.Action ≠ ChangeAction.noop := by
      intro r hr
      obtain ⟨n, hn, hrn⟩ := List.mem_flatMap.mp hr
      obtain ⟨c, hc, rfl⟩ := List.mem_map.mp hrn
      exact buildTreeNodes_children_nonnoop rs n hn c hc
    have hCReq : ((buildTreeNodes rs).flatMap
          (fun n => n.Children.map TreeNode.Resource)).filter
        (fun r => r.Action ≠ ChangeAction.noop)
        = (buildTreeNodes rs).flatMap
          (fun n => n.Children.map TreeNode.Resource) :=
      filter_nonnoop_eq_self hCRnn
    have hsub2 : ((buildTreeNodes rs).flatMap
        (fun n => n.Children.map TreeNode.Resource)).Sublist
        ((flattenForest (buildTreeNodes rs)).filter
          (fun r => r.Action ≠ ChangeAction.noop)) := by
      rw [← hCReq]
      exact List.Sublist.filter _ hsubflat
    have hnodflat : (((flattenForest (buildTreeNodes rs)).filter
        (fun r => r.Action ≠ ChangeAction.noop)).map
        ResourceChange.Address).Nodup :=
      (((buildTreeNodes_leaves_perm rs).map
        ResourceChange.Address).nodup_iff).mpr hnd
    exact hnodflat.sublist (hsub2.map ResourceChange.Address)
  · intro m hm
    unfold Model.getVisibleNodes
    rw [hm]
    refine flatMap_vis_eq_dfs _ ?_ ?_
    · intro n hn
      obtain ⟨n0, _, rfl⟩ := List.mem_map.mp hn
      exact setExpanded_Expanded n0 true
    · intro n hn c hc
      obtain ⟨n0, hn0, rfl⟩ := List.mem_map.mp hn
      rw [setExpanded_Children] at hc
      exact ((hshape n0 hn0).2.1 c hc).2

theorem C10_witness :
    (∀ n ∈ buildTreeNodes [exDeleteA, exCreateB],
      n.Level = 0 ∧
      (∀ c ∈ n.Children, c.Level = 1 ∧ c.Children = []) ∧
      (n.Children ≠ [] → n.Resource.Action = ChangeAction.noop ∧
        (n.Resource.«Type» = "module" ∨ n.Resource.«Type» = "file"))) ∧
    (((buildTreeNodes [exDeleteA, exCreateB]).flatMap
        (fun n => n.Children.map TreeNode.Resource)).map
      ResourceChange.Address).Nodup ∧
    (∀ m : Model, m.nodes = (buildTreeNodes [exDeleteA, exCreateB]).map
        (fun n => n.setExpanded true) →
      m.getVisibleNodes = dfsForest m.nodes) :=
  C10_forest_invariants [exDeleteA, exCreateB] (by decide)

lemma truncAgreeFields_length :
    ∀ (n : Nat) (fs gs : List (String × Value)),
      truncAgreeFields n fs gs = true → fs.length = gs.length := by
  intro n fs
  induction fs with
  | nil =>
    intro gs hg
    cases gs with
    | nil => rfl
    | cons q u => simp [truncAgreeFields] at hg
  | cons p t ih =>
    intro gs hg
    cases gs with
    | nil =>
      obtain ⟨k, v⟩ := p
      simp [truncAgreeFields] at hg
    | cons q u =>
      obtain ⟨k, v⟩ := p
      obtain ⟨k2, w⟩ := q
      rw [truncAgreeFields, Bool.and_eq_true, Bool.and_eq_true] at hg
      rw [List.length_cons, List.length_cons, ih u hg.2]

lemma truncAgreeItems_length :
    ∀ (n : Nat) (xs ys : List Value),
      truncAgreeItems n xs ys = true → xs.length = ys.length := by
  intro n xs
  induction xs with
  | nil =>
    intro ys hg
    cases ys with
    | nil => rfl
    | cons w u => simp [truncAgreeItems] at hg
  | cons v t ih =>
    intro ys hg
    cases ys with
    | nil => simp [truncAgreeItems] at hg
    | cons w u =>
      rw [truncAgreeItems, Bool.and_eq_true] at hg
      rw [List.length_cons, List.length_cons, ih u hg.2]

/- `renderValue` at depth d inspects its value only to depth 6 - d: values
that agree to that depth render identically. -/
lemma renderValue_congr :
    ∀ (n d : Nat), 6 - d = n →
    ∀ (indent key : String) (v w : Value), truncAgreeV n v w = true →
      renderValue indent key v d = renderValue indent key w d := by
  intro n
  induction n with
  | zero =>
    intro d hd indent key v w _
    have hgt : d > 5 := by omega
    rw [renderValue.eq_def, renderValue.eq_def, if_pos hgt, if_pos hgt]
  | succ m ih =>
    intro d hd indent key v w h
    have hle : ¬ d > 5 := by omega
    have hREC : ∀ (fs gs : List (String × Value)),
        truncAgreeFields m fs gs = true → ∀ ind,
        renderValuePairs ind fs (d + 1) = renderValuePairs ind gs (d + 1) := by
      intro fs
      induction fs with
      | nil =>
        intro gs hg ind
        cases gs with
        | nil => rfl
        | cons q u => simp [truncAgreeFields] at hg
      | cons p t ihp =>
        intro gs hg ind
        cases gs with
        | nil =>
          obtain ⟨k, v2⟩ := p
          simp [truncAgreeFields] at hg
        | cons q u =>
          obtain ⟨k, v2⟩ := p
          obtain ⟨k2, w2⟩ := q
          rw [truncAgreeFields, Bool.and_eq_true, Bool.and_eq_true,
            beq_iff_eq] at hg
          obtain ⟨⟨hk, hv⟩, ht⟩ := hg
          subst hk
          rw [renderValuePairs, renderValuePairs, ihp u ht ind,
            ih (d + 1) (by omega) ind k v2 w2 hv]
    have hRECI : ∀ (xs ys : List Value),
        truncAgreeItems m xs ys = true → ∀ ind i,
        renderValueItems ind xs i (d + 1)
          = renderValueItems ind ys i (d + 1) := by
      intro xs
      induction xs with
      | nil =>
        intro ys hg ind i
        cases ys with
        | nil => rfl
        | cons w2 u => simp [truncAgreeItems] at hg
      | cons v2 t ihp =>
        intro ys hg ind i
        cases ys with
        | nil => simp [truncAgreeItems] at hg
        | cons w2 u =>
          rw [truncAgreeItems, Bool.and_eq_true] at hg
          rw [renderValueItems, renderValueItems, ihp u hg.2 ind (i + 1),
            ih (d + 1) (by omega) ind ("[" ++ toString i ++ "]") v2 w2 hg.1]
    rw [renderValue.eq_def, renderValue.eq_def, if_neg hle, if_neg hle]
    cases v with
    | vnull =>
      cases w with
      | vnull => rfl
      | vbool b => simp [truncAgreeV] at h
      | vnum b => simp [truncAgreeV] at h
      | vstr b => simp [truncAgreeV] at h
      | vobj gs => simp [truncAgreeV] at h
      | varr ys => simp [truncAgreeV] at h
    | vbool a =>
      cases w with
      | vbool b =>
        rw [truncAgreeV] at h
        simp only [beq_iff_eq] at h
        rw [h]
      | vnull => simp [truncAgreeV] at h
      | vnum b => simp [truncAgreeV] at h
      | vstr b => simp [truncAgreeV] at h
      | vobj gs => simp [truncAgreeV] at h
      | varr ys => simp [truncAgreeV] at h
    | vnum a =>
      cases w with
      | vnum b =>
        rw [truncAgreeV] at h
        simp only [beq_iff_eq] at h
        rw [h]
      | vnull => simp [truncAgreeV] at h
      | vbool b => simp [truncAgreeV] at h
      | vstr b => simp [truncAgreeV] at h
      | vobj gs => simp [truncAgreeV] at h
      | varr ys => simp [truncAgreeV] at h
    | vstr a =>
      cases w with
      | vstr b =>
        rw [truncAgreeV] at h
        simp only [beq_iff_eq] at h
        rw [h]
      | vnull => simp [truncAgreeV] at h
      | vbool b => simp [truncAgreeV] at h
      | vnum b => simp [truncAgreeV] at h
      | vobj gs => simp [truncAgreeV] at h
      | varr ys => simp [truncAgreeV] at h
    | vobj fs =>
      cases w with
      | vobj gs =>
        rw [truncAgreeV] at h
        have hlen := truncAgreeFields_length m fs gs h
        show (if fs.length = 0 then _ else _) = (if gs.length = 0 then _ else _)
        rw [hlen, hREC fs gs h (indent ++ "  ")]
      | vnull => simp [truncAgreeV] at h
      | vbool b => simp [truncAgreeV] at h
      | vnum b => simp [truncAgreeV] at h
      | vstr b => simp [truncAgreeV] at h
      | varr ys => simp [truncAgreeV] at h
    | varr xs =>
      cases w with
      | varr ys =>
        rw [truncAgreeV] at h
        have hlen := truncAgreeItems_length m xs ys h
        show (if xs.length = 0 then _ else _) = (if ys.length = 0 then _ else _)
        rw [hlen, hRECI xs ys h (indent ++ "  ") 0]
      | vnull => simp [truncAgreeV] at h
      | vbool b => simp [truncAgreeV] at h
      | vnum b => simp [truncAgreeV] at h
      | vstr b => simp [truncAgreeV] at h
      | vobj gs => simp [truncAgreeV] at h

/- `renderDiffValue` likewise inspects its value only to depth 6 - d. -/
lemma renderDiffValue_congr :
    ∀ (n d : Nat), 6 - d = n →
    ∀ (indent pfx key : String) (v w : Value), truncAgreeV n v w = true →
      renderDiffValue indent pfx key v d = renderDiffValue indent pfx key w d := by
  intro n
  induction n with
  | zero =>
    intro d hd indent pfx key v w _
    have hgt : d > 5 := by omega
    rw [renderDiffValue.eq_def, renderDiffValue.eq_def, if_pos hgt, if_pos hgt]
  | succ m ih =>
    intro d hd indent pfx key v w h
    have hle : ¬ d > 5 := by omega
    have hREC : ∀ (fs gs : List (String × Value)),
        truncAgreeFields m fs gs = true → ∀ ind,
        renderDiffValuePairs ind pfx fs (d + 1)
          = renderDiffValuePairs ind pfx gs (d + 1) := by
      intro fs
      induction fs with
      | nil =>
        intro gs hg ind
        cases gs with
        | nil => rfl
        | cons q u => simp [truncAgreeFields] at hg
      | cons p t ihp =>
        intro gs hg ind
        cases gs with
        | nil =>
          obtain ⟨k, v2⟩ := p
          simp [truncAgreeFields] at hg
        | cons q u =>
          obtain ⟨k, v2⟩ := p
          obtain ⟨k2, w2⟩ := q
          rw [truncAgreeFields, Bool.and_eq_true, Bool.and_eq_true,
            beq_iff_eq] at hg
          obtain ⟨⟨hk, hv⟩, ht⟩ := hg
          subst hk
          rw [renderDiffValuePairs, renderDiffValuePairs, ihp u ht ind,
            ih (d + 1) (by omega) ind pfx k v2 w2 hv]
    have hRECI : ∀ (xs ys : List Value),
        truncAgreeItems m xs ys = true → ∀ ind i,
        renderDiffValueItems ind pfx xs i (d + 1)
          = renderDiffValueItems ind pfx ys i (d + 1) := by
      intro xs
      induction xs with
      | nil =>
        intro ys hg ind i
        cases ys with
        | nil => rfl
        | cons w2 u => simp [truncAgreeItems] at hg
      | cons v2 t ihp =>
        intro ys hg ind i
        cases ys with
        | nil => simp [truncAgreeItems] at hg
        | cons w2 u =>
          rw [truncAgreeItems, Bool.and_eq_true] at hg
          rw [renderDiffValueItems, renderDiffValueItems,
            ihp u hg.2 ind (i + 1),
            ih (d + 1) (by omega) ind pfx ("[" ++ toString i ++ "]")
              v2 w2 hg.1]
    rw [renderDiffValue.eq_def, renderDiffValue.eq_def, if_neg hle, if_neg hle]
    cases v with
    | vnull =>
      cases w with
      | vnull => rfl
      | vbool b => simp [truncAgreeV] at h
      | vnum b => simp [truncAgreeV] at h
      | vstr b => simp [truncAgreeV] at h
      | vobj gs => simp [truncAgreeV] at h
      | varr ys => simp [truncAgreeV] at h
    | vbool a =>
      cases w with
      | vbool b =>
        rw [truncAgreeV] at h
        simp only [beq_iff_eq] at h
        rw [h]
      | vnull => simp [truncAgreeV] at h
      | vnum b => simp [truncAgreeV] at h
      | vstr b => simp [truncAgreeV] at h
      | vobj gs => simp [truncAgreeV] at h
      | varr ys => simp [truncAgreeV] at h
    | vnum a =>
      cases w with
      | vnum b =>
        rw [truncAgreeV] at h
        simp only [beq_iff_eq] at h
        rw [h]
      | vnull => simp [truncAgreeV] at h
      | vbool b => simp [truncAgreeV] at h
      | vstr b => simp [truncAgreeV] at h
      | vobj gs => simp [truncAgreeV] at h
      | varr ys => simp [truncAgreeV] at h
    | vstr a =>
      cases w with
      | vstr b =>
        rw [truncAgreeV] at h
        simp only [beq_iff_eq] at h
        rw [h]
      | vnull => simp [truncAgreeV] at h
      | vbool b => simp [truncAgreeV] at h
      | vnum b => simp [truncAgreeV] at h
      | vobj gs => simp [truncAgreeV] at h
      | varr ys => simp [truncAgreeV] at h
    | vobj fs =>
      cases w with
      | vobj gs =>
        rw [truncAgreeV] at h
        have hlen := truncAgreeFields_length m fs gs h
        show (if fs.length = 0 then _ else _) = (if gs.length = 0 then _ else _)
        rw [hlen, hREC fs gs h (indent ++ "  ")]
      | vnull => simp [truncAgreeV] at h
      | vbool b => simp [truncAgreeV] at h
      | vnum b => simp [truncAgreeV] at h
      | vstr b => simp [truncAgreeV] at h
      | varr ys => simp [truncAgreeV] at h
    | varr xs =>
      cases w with
      | varr ys =>
        rw [truncAgreeV] at h
        have hlen := truncAgreeItems_length m xs ys h
        show (if xs.length = 0 then _ else _) = (if ys.length = 0 then _ else _)
        rw [hlen, hRECI xs ys h (indent ++ "  ") 0]
      | vnull => simp [truncAgreeV] at h
      | vbool b => simp [truncAgreeV] at h
      | vnum b => simp [truncAgreeV] at h
      | vstr b => simp [truncAgreeV] at h
      | vobj gs => simp [truncAgreeV] at h

/-- C7: value rendering and diff rendering short-circuit past the fixed
depth bound 5, emitting the opaque deeply-nested marker instead of
recursing, and at depth d their output depends on the value only to depth
6 - d, so rendering never inspects (hence never recurses into) a value
beyond a fixed bounded depth. -/
theorem C7_depth_cap (indent pfx key : String) (v w : Value) (d : Nat) :
    (d > 5 → renderValue indent key v d
        = indent ++ key ++ " = <deeply nested>\n") ∧
    (d > 5 → renderDiffValue indent pfx key v d
        = indent ++ "  " ++ pfx ++ " " ++ key ++ " = <deeply nested>\n") ∧
    (truncAgreeV (6 - d) v w = true →
      renderValue indent key v d = renderValue indent key w d) ∧
    (truncAgreeV (6 - d) v w = true →
      renderDiffValue indent pfx key v d
        = renderDiffValue indent pfx key w d) := by
  refine ⟨?_, ?_, ?_, ?_⟩
  · intro hgt
    rw [renderValue.eq_def, if_pos hgt]
  · intro hgt
    rw [renderDiffValue.eq_def, if_pos hgt]
  · exact renderValue_congr (6 - d) d rfl indent key v w
  · exact renderDiffValue_congr (6 - d) d rfl indent pfx key v w

theorem C7_witness :
    renderValue "" "k" (vchain (Value.vstr "x") 7) 6
        = "" ++ "k" ++ " = <deeply nested>\n" ∧
    renderDiffValue "" "+" "k" (vchain (Value.vstr "x") 7) 6
        = "" ++ "  " ++ "+" ++ " " ++ "k" ++ " = <deeply nested>\n" ∧
    renderValue "" "k" (vchain (Value.vstr "x") 7) 0
        = renderValue "" "k" (vchain (Value.vstr "y") 7) 0 ∧
    renderDiffValue "" "+" "k" (vchain (Value.vstr "x") 7) 0
        = renderDiffValue "" "+" "k" (vchain (Value.vstr "y") 7) 0 :=
  ⟨(C7_depth_cap "" "+" "k" (vchain (Value.vstr "x") 7) Value.vnull 6).1
      (by decide),
   (C7_depth_cap "" "+" "k" (vchain (Value.vstr "x") 7) Value.vnull 6).2.1
      (by decide),
   (C7_depth_cap "" "+" "k" (vchain (Value.vstr "x") 7)
      (vchain (Value.vstr "y") 7) 0).2.2.1 (by decide),
   (C7_depth_cap "" "+" "k" (vchain (Value.vstr "x") 7)
      (vchain (Value.vstr "y") 7) 0).2.2.2 (by decide)⟩

end TPlan
